import Mathlib

/-!
Verification of the moveworks_mcp documentation knowledge-base core
(crawler, indexer, hybrid search) against its natural-language
specification.  The Python source under `src/moveworks_mcp/kb/` is
shallowly embedded: pure string manipulation is translated to
char-list functions, the persistent ChromaDB collections become
association lists keyed by id, network fetches and DOM queries become
explicit inputs, and Python floats become rationals.
-/

namespace MwKb

/-! ## Char-level models of the Python string primitives used by the source.
All Python splits in the embedded code use single-character separators, so a
structural split on `List Char` is an exact model and stays kernel-reducible. -/

/-- Model of Python `s.split(c)` for a single-character separator `c`:
splits on every occurrence, keeping empty pieces. -/
def splitChar (c : Char) : List Char → List (List Char)
  | [] => [[]]
  | x :: xs =>
    if x = c then [] :: splitChar c xs
    else match splitChar c xs with
      | [] => [[x]]
      | p :: ps => (x :: p) :: ps

/-- Model of Python `s.rstrip(c)`: drop every trailing occurrence of `c`. -/
def rstripChar (c : Char) (l : List Char) : List Char :=
  (l.reverse.dropWhile (· = c)).reverse

/-- Model of Python `s.strip(c)`: drop occurrences of `c` at both ends. -/
def stripChar (c : Char) (l : List Char) : List Char :=
  rstripChar c (l.dropWhile (· = c))

/-- Model of Python `s.strip()`: drop ASCII whitespace at both ends. -/
def stripWs (l : List Char) : List Char :=
  ((l.dropWhile Char.isWhitespace).reverse.dropWhile Char.isWhitespace).reverse

/-- Model of Python `sep.join(parts)` / `" > ".join(...)`. -/
def joinSep (sep : List Char) : List (List Char) → List Char
  | [] => []
  | [p] => p
  | p :: ps => p ++ sep ++ joinSep sep ps

/-- Model of Python `s.replace(old, new)` for single characters. -/
def replaceChar (old new : Char) (l : List Char) : List Char :=
  l.map (fun c => if c = old then new else c)

/-- One step of Python `str.title()`: `prev` records whether the previous
character was cased (a letter). A letter after a non-cased character is
uppercased, a letter after a letter is lowercased. -/
def pyTitleAux : Bool → List Char → List Char
  | _, [] => []
  | prev, c :: cs =>
    if c.isAlpha then
      (if prev then c.toLower else c.toUpper) :: pyTitleAux true cs
    else
      c :: pyTitleAux false cs

/-- Model of Python `str.title()` restricted to ASCII letters. -/
def pyTitle (l : List Char) : List Char := pyTitleAux false l

/-- String wrapper for `splitChar`. -/
def pySplit (c : Char) (s : String) : List String :=
  (splitChar c s.data).map String.mk

/-- String wrapper for `stripWs` (Python `str.strip()`). -/
def pyStrip (s : String) : String := String.mk (stripWs s.data)

example : pySplit '/' "https://x.com/docs/page" =
    ["https:", "", "x.com", "docs", "page"] := by decide
example : pyTitle "compound-actions".data = "Compound-Actions".data := by decide
example : String.mk (pyTitle (replaceChar '-' ' ' "api_v2 ref-guide".data)) =
    String.mk (pyTitle "api_v2 ref guide".data) := by decide

/-! ## Model of the `urllib.parse` functions the source relies on
(`urlparse(u).netloc`, `urlparse(u).path`, `urljoin`), for absolute
`scheme://host/path?query#fragment` URLs and the href forms the crawler
meets (absolute, protocol-relative, host-relative, path-relative,
fragment-only).  Dot-segment normalization is not modelled; none of the
verified properties depends on it. -/

/-- Split a URL at the first occurrence of the literal `://`, returning
the scheme part and the remainder, or `none` when there is no `://`. -/
def splitScheme : List Char → Option (List Char × List Char)
  | [] => none
  | ':' :: '/' :: '/' :: rest => some ([], rest)
  | c :: rest => (splitScheme rest).map (fun p => (c :: p.1, p.2))

/-- True for characters that end the network-location part of a URL. -/
def isNetlocEnd (c : Char) : Bool := c = '/' || c = '?' || c = '#'

/-- Model of Python `urlparse(u).netloc` for URLs written with `://`
(the result is empty when no `://` is present, as for relative URLs). -/
def netloc (u : String) : String :=
  match splitScheme u.data with
  | none => ""
  | some (_, rest) => String.mk (rest.takeWhile (fun c => !isNetlocEnd c))

/-- Model of Python `urlparse(u).path`: what follows the network location,
up to the query or fragment; for URLs without `://` the whole string up to
the query or fragment. -/
def urlPath (u : String) : String :=
  match splitScheme u.data with
  | none => String.mk (u.data.takeWhile (fun c => c ≠ '?' && c ≠ '#'))
  | some (_, rest) =>
      String.mk ((rest.dropWhile (fun c => !isNetlocEnd c)).takeWhile
        (fun c => c ≠ '?' && c ≠ '#'))

/-- The `scheme://host` prefix of an absolute URL. -/
def schemeNetloc (u : String) : String :=
  match splitScheme u.data with
  | none => ""
  | some (sch, rest) =>
      String.mk (sch ++ "://".data ++ rest.takeWhile (fun c => !isNetlocEnd c))

/-- Whether `href` starts with a URI scheme (letter, then letters, digits,
`+`, `-` or `.`, then `:`), as `urlparse` recognises schemes. -/
def hasUriScheme (href : String) : Bool :=
  let pre := href.data.takeWhile (fun c => c.isAlphanum || c = '+' || c = '-' || c = '.')
  match pre.head? with
  | none => false
  | some c => c.isAlpha && (href.data.drop pre.length).head? = some ':'

/-- The base URL up to and including the last `/` of its path; `/` when the
path has no segment yet.  Used by `urljoin` for path-relative hrefs. -/
def baseDir (u : String) : String :=
  let p := (urlPath u).data
  let trimmed := (p.reverse.dropWhile (· ≠ '/')).reverse
  schemeNetloc u ++ String.mk (if trimmed = [] then ['/'] else trimmed)

/-- Model of Python `urllib.parse.urljoin(base, href)` for the href shapes
occurring in crawled documents (dot segments are kept verbatim rather than
collapsed). -/
def urljoin (base href : String) : String :=
  if href = "" then base
  else if hasUriScheme href then href
  else if ['/', '/'].isPrefixOf href.data then
    (match splitScheme base.data with
     | none => href
     | some (sch, _) => String.mk sch ++ ":" ++ href)
  else if ['/'].isPrefixOf href.data then schemeNetloc base ++ href
  else if ['#'].isPrefixOf href.data then
    String.mk (base.data.takeWhile (· ≠ '#')) ++ href
  else baseDir base ++ href

example : netloc "https://Example.com/p?x=1" = "Example.com" := by decide
example : urlPath "https://example.com/docs/my-page?q=2#frag" = "/docs/my-page" := by decide
example : urljoin "https://example.com/a/b" "c" = "https://example.com/a/c" := by decide
example : urljoin "https://example.com/a" "/p?x=1" = "https://example.com/p?x=1" := by decide
example : urljoin "https://example.com/a" "https://other.com/z" = "https://other.com/z" := by decide
example : urljoin "https://example.com/a" "//cdn.example.com/z" = "https://cdn.example.com/z" := by decide

/-! ## HTML normalizer (`DocCrawler._parse_page`, `DocCrawler._extract_breadcrumb`)
The BeautifulSoup DOM queries are abstracted into a `Soup` record holding the
outcome of each selector probe the source performs; the string processing on
those outcomes is embedded exactly. -/

/-- Outcome of the DOM probes `_parse_page` / `_extract_breadcrumb` perform on
the parsed HTML (after the script/style/iframe pre-strip). -/
structure Soup where
  /-- `soup.title.string` when a `title` element with a string child exists. -/
  titleString : Option String
  /-- Text of the first `h1` element, when one exists.  The source never
  queries it; it is carried to state the spec's claimed `h1` fallback. -/
  firstH1 : Option String
  /-- Strategy 1 probe: when a breadcrumb element matches, the stripped texts
  of its anchors and of an optional `span[aria-current=page]`. -/
  breadcrumbParts : Option (List String × Option String)
  /-- Strategy 2 probe: when a sidebar with an active item matches, the labels
  collected while walking up to the sidebar root (already de-duplicated, in
  outermost-first order as `path_parts` holds them) and the active item text. -/
  sidebarWalk : Option (List String × String)
  /-- `main.get_text(separator="\n", strip=True)` of the selected main region
  after chrome removal. -/
  mainText : String
  /-- The `href` attributes of all `<a href>` elements, in document order. -/
  anchors : List String

/-- Embedding of `DocCrawler._extract_breadcrumb(soup, url)`: structured
breadcrumb element first, then active sidebar item (accepted only with at
least two segments), then the URL-path fallback; an URL with an empty path
yields the URL itself. -/
def extract_breadcrumb (soup : Soup) (url : String) : String :=
  let strategy3 :=
    let path := stripChar '/' (urlPath url).data
    let parts := (splitChar '/' path).filter (fun p => p ≠ [])
    let parts := parts.map (fun p => pyTitle (replaceChar '_' ' ' (replaceChar '-' ' ' p)))
    if parts ≠ [] then String.mk (joinSep " > ".data parts) else url
  let strategy2 :=
    match soup.sidebarWalk with
    | none => strategy3
    | some (labels, active) =>
      let path_parts := labels ++ [active]
      if path_parts.length > 1 then
        String.mk (joinSep " > ".data (path_parts.map String.data))
      else strategy3
  match soup.breadcrumbParts with
  | none => strategy2
  | some (anchorTexts, current) =>
    let parts := anchorTexts ++ (match current with | some t => [t] | none => [])
    if parts ≠ [] then String.mk (joinSep " > ".data (parts.map String.data))
    else strategy2

/-- A normalized page record as `_parse_page` returns it. -/
structure Page where
  url : String
  title : String
  breadcrumb : String
  content : String
  links : List String
  deriving DecidableEq

/-- The per-anchor link pipeline of `_parse_page`:
`urljoin(url, href).split("#")[0].rstrip("/")`. -/
def canonLink (url href : String) : String :=
  String.mk (rstripChar '/' ((urljoin url href).data.takeWhile (· ≠ '#')))

/-- Embedding of `DocCrawler._parse_page(url, html)` over the DOM probe
outcomes; `domain` is the crawler's `self.domain`.  The title falls back
directly from the `title` string to the last `/`-separated piece of the URL;
links are resolved, fragment-stripped, slash-stripped, filtered to the
domain, and de-duplicated preserving order. -/
def parse_page (domain url : String) (soup : Soup) : Page :=
  { url := url
    title := match soup.titleString with
      | some s => pyStrip s
      | none => (pySplit '/' url).getLastD ""
    breadcrumb := extract_breadcrumb soup url
    content := soup.mainText
    links := soup.anchors.foldl (fun links href =>
      let full := canonLink url href
      if netloc full = domain ∧ full ∉ links then links ++ [full] else links) [] }

/-- A `Soup` with every probe empty, as for a bare page. -/
def emptySoup : Soup :=
  { titleString := none, firstH1 := none, breadcrumbParts := none,
    sidebarWalk := none, mainText := "", anchors := [] }

example : extract_breadcrumb emptySoup "https://help.moveworks.com/docs/compound-actions" =
    "Docs > Compound Actions" := by decide
example : extract_breadcrumb emptySoup "https://example.com" = "https://example.com" := by decide
example : (parse_page "example.com" "https://example.com/a" { emptySoup with anchors := ["/p?x=1", "b#frag", "/p?x=1"] }).links =
    ["https://example.com/p?x=1", "https://example.com/b"] := by decide
example : (parse_page "example.com" "https://x.com/docs/page" { emptySoup with firstH1 := some "Hello" }).title = "page" := by decide

/-! ## Python dict model: association lists with insertion order.
`dictSet` models `d[k] = v` (update in place when the key exists, else
append, as Python dicts preserve first-insertion order). -/

/-- `d[k] = v` on an insertion-ordered association list. -/
def dictSet (k : String) (v : α) (l : List (String × α)) : List (String × α) :=
  if l.any (fun p => p.1 = k) then
    l.map (fun p => if p.1 = k then (k, v) else p)
  else l ++ [(k, v)]

/-- `d.get(k)` on an association list. -/
def dictGet (k : String) (l : List (String × α)) : Option α :=
  (l.find? (fun p => p.1 = k)).map (·.2)

/-- `k in d` on an association list. -/
def dictHas (k : String) (l : List (String × α)) : Bool :=
  l.any (fun p => p.1 = k)

/-- The keys of an association list. -/
def dictKeys (l : List (String × α)) : List String := l.map (·.1)

/-! ## Crawler (`DocCrawler.crawl_multiple`, `DocCrawler.crawl_domain`)
The network is abstracted as `net : String → Option Soup`: the parsed DOM of
a successfully fetched page, or `none` for any fetch failure (non-200,
timeout, exception).  `_fetch_page` then parses with the requested URL. -/

/-- Embedding of `DocCrawler._fetch_page(session, url)`: on success the page
is produced by `_parse_page(url, html)`, so its `url` field is the requested
URL even after redirects. -/
def fetch_page (net : String → Option Soup) (domain url : String) : Option Page :=
  (net url).map (fun soup => parse_page domain url soup)

/-- Embedding of `DocCrawler.crawl_multiple(urls)`: fetch every URL, keep the
successful ones keyed by the requested URL. -/
def crawl_multiple (net : String → Option Soup) (domain : String)
    (urls : List String) : List (String × Page) :=
  urls.foldl (fun pages url =>
    match fetch_page net domain url with
    | some page => dictSet url page pages
    | none => pages) []

/-- State of the `crawl_domain` BFS loop: the work queue, the `seen` set
(as an insertion-ordered list; only membership is used) and the result map. -/
structure CrawlState where
  queue : List String
  seen : List String
  pages : List (String × Page)

/-- One batch of the `crawl_domain` loop body: fetch each URL of the batch,
record successes, and enqueue newly discovered links gated by `seen`. -/
def crawlBatch (net : String → Option Soup) (domain : String)
    (batch : List String) (st : CrawlState) : CrawlState :=
  batch.foldl (fun st url =>
    match fetch_page net domain url with
    | some page =>
      let st := { st with pages := dictSet url page st.pages }
      page.links.foldl (fun st link =>
        if link ∈ st.seen then st
        else { st with seen := st.seen ++ [link], queue := st.queue ++ [link] }) st
    | none => st) st

/-- The `while queue and len(pages) < max_pages` loop of `crawl_domain`,
popping up to 10 URLs per iteration.  `fuel` bounds the number of
iterations; the Python loop terminates because a finite site yields finitely
many URLs, each enqueued at most once. -/
def crawlLoop (net : String → Option Soup) (domain : String) (maxPages : ℕ) :
    ℕ → CrawlState → CrawlState
  | 0, st => st
  | fuel + 1, st =>
    if st.queue = [] ∨ ¬ st.pages.length < maxPages then st
    else
      crawlLoop net domain maxPages fuel
        (crawlBatch net domain (st.queue.take 10) { st with queue := st.queue.drop 10 })

/-- Embedding of `DocCrawler.crawl_domain(sitemap_url)`: the seed list is the
domain-filtered sitemap result, falling back to `[base_url]` when empty; the
queue and `seen` start as the seed list. -/
def crawl_domain (net : String → Option Soup) (domain base_url : String)
    (sitemapUrls : List String) (maxPages fuel : ℕ) : List (String × Page) :=
  let seed := if sitemapUrls = [] then [base_url] else sitemapUrls
  (crawlLoop net domain maxPages fuel { queue := seed, seen := seed, pages := [] }).pages

/-! ## Indexer (`KBIndexer`)
The two ChromaDB collections become association lists keyed by id.  The
sentence-transformer is abstracted as a deterministic `embed` function into
rational vectors.  The md5 hexdigest used for chunk ids is modelled by its
pre-image string (md5 is treated as collision-free, as the source's
"deterministic hash" contract intends). -/

/-- A stored full-page document: the enriched text blob plus its metadata. -/
structure PageDoc where
  text : String
  url : String
  title : String
  breadcrumb : String
  domain : String
  deriving DecidableEq

/-- A stored chunk: one embedded view of a page plus its metadata. -/
structure ChunkDoc where
  embedding : List ℚ
  text : String
  parent_url : String
  title : String
  breadcrumb : String
  view_type : String
  domain : String
  deriving DecidableEq

/-- The persistent store: the `mw_pages` collection keyed by URL and the
`mw_chunks` collection keyed by chunk id. -/
structure Store where
  pages : List (String × PageDoc)
  chunks : List (String × ChunkDoc)
  deriving DecidableEq

/-- The empty store. -/
def Store.empty : Store := { pages := [], chunks := [] }

/-- Embedding of `KBIndexer._extract_domain(url)` = `urlparse(url).netloc`. -/
def extract_domain (url : String) : String := netloc url

/-- Embedding of `KBIndexer.page_exists(url)`: the page collection holds an
entry with id `url`. -/
def page_exists (s : Store) (url : String) : Bool :=
  s.pages.any (fun p => p.1 = url)

/-- The chunk id for view `i` of `url`: models
`hashlib.md5(f"{...}::view::{...}".encode()).hexdigest()` by the hashed
string itself. -/
def chunkId (url : String) (i : ℕ) : String :=
  url ++ "::view::" ++ toString i

/-- The enriched text blob stored as the page document:
`f"Navigation: {...}\nTitle: {...}\n\n{...}"`. -/
def enrichedContent (page : Page) : String :=
  "Navigation: " ++ page.breadcrumb ++ "\nTitle: " ++ page.title ++ "\n\n" ++ page.content

/-- The stored page document of a page, as `index_page` upserts it. -/
def pageDocOf (page : Page) : PageDoc :=
  { text := enrichedContent page, url := page.url, title := page.title,
    breadcrumb := page.breadcrumb, domain := extract_domain page.url }

/-- The three `(view_text, label)` pairs of `index_page`:
`zip(views, view_labels)`. -/
def pageViews (page : Page) : List (String × String) :=
  [page.breadcrumb,
   page.title ++ " - " ++ page.breadcrumb,
   String.mk ((enrichedContent page).data.take 2000)].zip
    ["breadcrumb", "title_path", "full_content"]

/-- The chunk `index_page` upserts for one view of a page. -/
def viewChunk (embed : String → List ℚ) (page : Page)
    (view_text label : String) : ChunkDoc :=
  { embedding := embed view_text, text := view_text, parent_url := page.url,
    title := page.title, breadcrumb := page.breadcrumb, view_type := label,
    domain := extract_domain page.url }

/-- Embedding of `KBIndexer.index_page(page, force)`: skip when the page
exists and `force` is false; otherwise upsert the enriched document, then
upsert one chunk per view whose text is non-empty after stripping
(`enumerate(zip(views, view_labels))`).  Returns the URL on a write, `none`
on a skip, with the resulting store. -/
def index_page (embed : String → List ℚ) (page : Page) (force : Bool)
    (s : Store) : Option String × Store :=
  let url := page.url
  if !force && page_exists s url then (none, s)
  else
    let s := { s with pages := dictSet url (pageDocOf page) s.pages }
    let s := (pageViews page).enum.foldl (fun s entry =>
      if pyStrip entry.2.1 = "" then s
      else
        let chunks' := dictSet (chunkId url entry.1)
          (viewChunk embed page entry.2.1 entry.2.2) s.chunks
        { s with chunks := chunks' }) s
    (some url, s)

/-! ### Removal (`KBIndexer.remove_page`, `KBIndexer.remove_domain`)
For the error-propagation claim the store calls are abstracted as fallible
operations returning `Except`; `remove_page` wraps only its first call
(`self.pages.delete`) in `try/except Exception: pass`. -/

/-- The store calls the removal paths perform, each able to raise. -/
structure StoreOps where
  pagesDelete : List String → Except String Unit
  pagesGetWhereDomain : String → Except String (List String)
  chunksGetWhereParent : String → Except String (List String)
  chunksGetWhereDomain : String → Except String (List String)
  chunksDelete : List String → Except String Unit

/-- The `try ... except Exception: pass` wrapper around a store call. -/
def trySwallow (e : Except String Unit) : Except String Unit :=
  match e with
  | .ok _ => .ok ()
  | .error _ => .ok ()

/-- Embedding of `KBIndexer.remove_page(url)`: the page delete is wrapped in
`try/except pass`; the chunk lookup and chunk delete are not. -/
def remove_page (ops : StoreOps) (url : String) : Except String Unit :=
  match trySwallow (ops.pagesDelete [url]) with
  | .error e => .error e
  | .ok _ =>
    match ops.chunksGetWhereParent url with
    | .error e => .error e
    | .ok ids => if ids ≠ [] then ops.chunksDelete ids else .ok ()

/-- Embedding of `KBIndexer.remove_domain(domain)`: four unguarded store
calls in sequence. -/
def remove_domain (ops : StoreOps) (domain : String) : Except String Unit :=
  match ops.pagesGetWhereDomain domain with
  | .error e => .error e
  | .ok pids =>
    match (if pids ≠ [] then ops.pagesDelete pids else .ok ()) with
    | .error e => .error e
    | .ok _ =>
      match ops.chunksGetWhereDomain domain with
      | .error e => .error e
      | .ok cids => if cids ≠ [] then ops.chunksDelete cids else .ok ()

/-! ## Hybrid search (`KBSearch.search`, `KBSearch._bm25_search`)
The chunk query against the vector store is abstracted as its result: a list
of `(metadata, distance)` hits in the store's traversal order.  The raw
`BM25Okapi.get_scores` output of the third-party `rank_bm25` library is
abstracted as a list of rationals aligned with the candidate URLs; the
normalization and filtering applied to it are embedded exactly.  Python
floats are modelled as rationals, and `round(x, 4)` by rounding
`x * 10000` to an integer (half-up where Python floats round half-even;
none of the verified properties involves an exact half tie). -/

/-- The metadata fields of a chunk hit that `search` reads. -/
structure HitMeta where
  parent_url : String
  title : String
  breadcrumb : String
  deriving DecidableEq

/-- Model of Python `round(q, 4)`. -/
def round4 (q : ℚ) : ℚ := (round (q * 10000) : ℤ) / 10000

/-- Dense phase of `search`: fold the chunk hits, keeping per `parent_url`
the maximum `1 - distance` and the metadata of the best hit
(the `url_scores` / `url_meta` dictionaries, stored together). -/
def densePhase (hits : List (HitMeta × ℚ)) : List (String × (ℚ × HitMeta)) :=
  hits.foldl (fun acc hit =>
    let url := hit.1.parent_url
    let score := 1 - hit.2
    match dictGet url acc with
    | none => acc ++ [(url, (score, hit.1))]
    | some prev =>
      if score > prev.1 then
        acc.map (fun p => if p.1 = url then (url, (score, hit.1)) else p)
      else acc) []

/-- Embedding of `KBSearch._bm25_search(query, candidate_urls)` given the raw
`BM25Okapi.get_scores` output for the candidate corpus: normalize by the
maximum score when it is positive (else by 1) and keep only candidates with
a strictly positive raw score.  `raw.foldr max 0` agrees with Python
`max(scores)` whenever the maximum is positive, and otherwise both sides
take the `else 1.0` branch, so the divisor is identical. -/
def bm25_search (candidate_urls : List String) (raw : List ℚ) :
    List (String × ℚ) :=
  if candidate_urls = [] then []
  else
    let max_score := if raw.foldr max 0 > 0 then raw.foldr max 0 else 1
    (candidate_urls.zip raw).foldl (fun acc p =>
      if p.2 > 0 then acc ++ [(p.1, p.2 / max_score)] else acc) []

/-- The blend loop of `search`: for every `(url, bm25_score)` pair, blend
`0.7 · dense + 0.3 · bm25` when the URL already has a dense score, else
record `0.3 · bm25` alone. -/
def blend (url_scores : List (String × ℚ)) (bm25_scores : List (String × ℚ)) :
    List (String × ℚ) :=
  bm25_scores.foldl (fun acc p =>
    if dictHas p.1 acc then
      acc.map (fun q => if q.1 = p.1 then (q.1, q.2 * (7/10) + p.2 * (3/10)) else q)
    else acc ++ [(p.1, p.2 * (3/10))]) url_scores

/-- Stable insertion of a scored URL into a non-increasing list: an earlier
element keeps its place on ties, matching Python's stable `sorted`. -/
def insertDesc (x : String × ℚ) : List (String × ℚ) → List (String × ℚ)
  | [] => [x]
  | y :: ys => if x.2 ≥ y.2 then x :: y :: ys else y :: insertDesc x ys

/-- Model of `sorted(url_scores.keys(), key=..., reverse=True)`: a stable
sort of the score pairs by score descending (equivalent to sorting the keys
because the keys are distinct). -/
def sortDesc : List (String × ℚ) → List (String × ℚ)
  | [] => []
  | x :: xs => insertDesc x (sortDesc xs)

/-- One result row of `search`. -/
structure SearchResult where
  url : String
  title : String
  breadcrumb : String
  score : ℚ
  content : String
  deriving DecidableEq

/-- Embedding of `KBSearch.search(query, top_k)` given the dense-phase chunk
hits, the raw BM25 scores for the dense candidates, and the page store
lookup `get_full_page`.  Aggregates dense scores per URL, blends in the
normalized positive BM25 scores, ranks descending, keeps `top_k`, and
assembles rows for the URLs whose full page is still present, with scores
rounded to four decimal places. -/
def search (hits : List (HitMeta × ℚ)) (raw : List ℚ)
    (get_full_page : String → Option String) (top_k : ℕ) : List SearchResult :=
  let dense := densePhase hits
  let url_scores := dense.map (fun p => (p.1, p.2.1))
  let bm25_scores := bm25_search (dictKeys url_scores) raw
  let url_scores := blend url_scores bm25_scores
  let ranked := (sortDesc url_scores).take top_k
  ranked.foldl (fun results p =>
    match get_full_page p.1 with
    | none => results
    | some full_content =>
      let meta := dictGet p.1 dense
      let row : SearchResult :=
        { url := p.1
          title := (meta.map (fun m => m.2.title)).getD ""
          breadcrumb := (meta.map (fun m => m.2.breadcrumb)).getD ""
          score := round4 p.2
          content := full_content }
      results ++ [row]) []

/-! ## Spec-side reference definitions
These follow the specification's words (not the source) and exist only to be
compared with the embedded source functions. -/

/-- The title rule as the specification words it: the trimmed `title` text;
on absence, the first `h1`; on absence, the last URL path segment. -/
def specTitle (titleString firstH1 : Option String) (url : String) : String :=
  match titleString with
  | some s => pyStrip s
  | none =>
    match firstH1 with
    | some h => h
    | none =>
      String.mk ((((splitChar '/' (urlPath url).data).filter (· ≠ [])).getLastD []))

/-- URL canonicalization as the specification words it: resolve against the
page URL, lowercase scheme and host, preserve the path, drop query and
fragment, remove the trailing slash. -/
def specCanonical (pageUrl href : String) : String :=
  let u := urljoin pageUrl href
  let sch := match splitScheme u.data with | none => [] | some p => p.1
  String.mk (sch.map Char.toLower) ++ "://" ++
    String.mk ((netloc u).data.map Char.toLower) ++
    String.mk (rstripChar '/' (urlPath u).data)

/-- The breadcrumb fallback as the specification words it: the URL path
segments, each title-cased with `-` and `_` replaced by spaces, joined by
`" > "`. -/
def specBreadcrumbFallback (url : String) : String :=
  String.mk (joinSep " > ".data
    (((splitChar '/' (urlPath url).data).filter (· ≠ [])).map
      (fun p => pyTitle (replaceChar '_' ' ' (replaceChar '-' ' ' p)))))

/-! ## Store well-formedness
The states the system itself produces: collection keys are unique (ChromaDB
ids are primary keys) and every chunk id is the deterministic hash of its
parent URL and a view index below 3, which is how `index_page` — the only
writer — creates chunks. -/

/-- A concrete page record, used to instantiate universally quantified
results. -/
def samplePage : Page :=
  { url := "https://h.c/docs/a", title := "T", breadcrumb := "B",
    content := "C", links := [] }

/-- A concrete trivial embedder, used to instantiate universally quantified
results. -/
def sampleEmbed : String → List ℚ := fun _ => []

/-- Reachable-store invariant: unique ids in both collections, and every
chunk's id is `chunkId` of its own `parent_url` and a view index `< 3`. -/
def StoreWF (s : Store) : Prop :=
  (dictKeys s.pages).Nodup ∧ (dictKeys s.chunks).Nodup ∧
    ∀ p ∈ s.chunks, ∃ i < 3, p.1 = chunkId p.2.parent_url i

/-! ## Helper lemmas about the dict model -/

theorem dictKeys_dictSet (k : String) (v : α) (l : List (String × α)) :
    dictKeys (dictSet k v l) =
      if l.any (fun p => p.1 = k) then dictKeys l else dictKeys l ++ [k] := by
  unfold dictSet dictKeys
  split
  · simp only [List.map_map]
    congr 1
    funext p
    by_cases h : p.1 = k <;> simp [h]
  · simp

theorem dictHas_eq_mem_keys (k : String) (l : List (String × α)) :
    l.any (fun p => p.1 = k) = true ↔ k ∈ dictKeys l := by
  simp only [dictKeys, List.any_eq_true, List.mem_map, decide_eq_true_eq]

theorem dictKeys_nodup_dictSet (k : String) (v : α) (l : List (String × α))
    (h : (dictKeys l).Nodup) : (dictKeys (dictSet k v l)).Nodup := by
  rw [dictKeys_dictSet]
  split
  · exact h
  · rename_i hany
    have : k ∉ dictKeys l := fun hk => hany ((dictHas_eq_mem_keys k l).mpr hk)
    simp [List.nodup_append, h, this]

theorem mem_dictSet_elim {k : String} {v : α} {l : List (String × α)}
    {p : String × α} (h : p ∈ dictSet k v l) : p = (k, v) ∨ p ∈ l := by
  unfold dictSet at h
  split at h
  · rcases List.mem_map.mp h with ⟨q, hq, hpq⟩
    by_cases hk : q.1 = k
    · left; rw [if_pos hk] at hpq; exact hpq.symm
    · right; rw [if_neg hk] at hpq; exact hpq ▸ hq
  · rcases List.mem_append.mp h with h | h
    · right; exact h
    · left; simpa using h

theorem dictSet_length_le (k : String) (v : α) (l : List (String × α)) :
    (dictSet k v l).length ≤ l.length + 1 := by
  unfold dictSet
  split <;> simp

theorem find?_map_dictSet_self (k : String) (v : α) (l : List (String × α)) :
    List.find? (fun p => p.1 = k) (l.map (fun p => if p.1 = k then (k, v) else p)) =
      if l.any (fun p => p.1 = k) then some (k, v) else none := by
  induction l with
  | nil => rfl
  | cons a t ih =>
    rw [List.map_cons, List.any_cons]
    by_cases ha : a.1 = k
    · rw [if_pos ha, List.find?_cons_of_pos _ (by simp), ha]
      simp
    · rw [if_neg ha, List.find?_cons_of_neg _ (by simpa using ha), ih,
        decide_eq_false ha, Bool.false_or]

theorem find?_eq_none_of_not_any (k : String) (l : List (String × α))
    (h : ¬ l.any (fun p => p.1 = k) = true) :
    List.find? (fun p => p.1 = k) l = none := by
  rw [List.find?_eq_none]
  intro p hp
  simp only [List.any_eq_true] at h
  intro hpk
  exact h ⟨p, hp, hpk⟩

theorem dictGet_dictSet_self (k : String) (v : α) (l : List (String × α)) :
    dictGet k (dictSet k v l) = some v := by
  unfold dictGet dictSet
  split
  · rename_i hany
    rw [find?_map_dictSet_self, if_pos hany]
    rfl
  · rename_i hany
    rw [List.find?_append, find?_eq_none_of_not_any k l hany]
    simp [List.find?]

theorem find?_map_dictSet_ne (k k' : String) (v : α) (l : List (String × α))
    (h : k' ≠ k) :
    List.find? (fun p => p.1 = k') (l.map (fun p => if p.1 = k then (k, v) else p)) =
      List.find? (fun p => p.1 = k') l := by
  induction l with
  | nil => rfl
  | cons a t ih =>
    rw [List.map_cons]
    by_cases ha : a.1 = k
    · have h1 : ¬ ((k, v).1 = k') := fun hh => h hh.symm
      have h2 : ¬ (a.1 = k') := fun hh => h (by rw [← hh, ha])
      rw [if_pos ha, List.find?_cons_of_neg _ (by simpa using h1),
        List.find?_cons_of_neg _ (by simpa using h2), ih]
    · rw [if_neg ha]
      by_cases ha2 : a.1 = k'
      · rw [List.find?_cons_of_pos _ (by simpa using ha2),
          List.find?_cons_of_pos _ (by simpa using ha2)]
      · rw [List.find?_cons_of_neg _ (by simpa using ha2),
          List.find?_cons_of_neg _ (by simpa using ha2), ih]

theorem dictGet_dictSet_ne (k k' : String) (v : α) (l : List (String × α))
    (h : k' ≠ k) : dictGet k' (dictSet k v l) = dictGet k' l := by
  unfold dictGet dictSet
  split
  · rw [find?_map_dictSet_ne k k' v l h]
  · rw [List.find?_append]
    have hkk : ¬ (k = k') := fun hh => h hh.symm
    have hne : List.find? (fun p => p.1 = k') [(k, v)] = none := by
      simp [List.find?, hkk]
    simp [hne]

theorem dictGet_eq_some_of_mem {l : List (String × α)} {k : String} {v : α}
    (hnd : (dictKeys l).Nodup) (h : (k, v) ∈ l) : dictGet k l = some v := by
  induction l with
  | nil => cases h
  | cons a t ih =>
    rcases List.mem_cons.mp h with rfl | ht
    · simp [dictGet, List.find?]
    · have hk : ¬ a.1 = k := by
        intro hak
        have : k ∈ dictKeys t :=
          List.mem_map.mpr ⟨(k, v), ht, rfl⟩
        rw [dictKeys, List.map_cons] at hnd
        exact (List.nodup_cons.mp hnd).1 (hak ▸ this)
      have hnd' : (dictKeys t).Nodup := by
        rw [dictKeys, List.map_cons] at hnd
        exact (List.nodup_cons.mp hnd).2
      simpa [dictGet, List.find?, hk] using ih hnd' ht

theorem mem_of_dictGet_eq_some {l : List (String × α)} {k : String} {v : α}
    (h : dictGet k l = some v) : (k, v) ∈ l := by
  unfold dictGet at h
  rcases hf : List.find? (fun p => p.1 = k) l with _ | p
  · rw [hf] at h; cases h
  · rw [hf] at h
    have hm := List.mem_of_find?_eq_some hf
    have hk : p.1 = k := by simpa using List.find?_some hf
    have hv : p.2 = v := by simpa using h
    have : p = (k, v) := Prod.ext hk hv
    exact this ▸ hm

theorem dictGet_isSome_of_has {l : List (String × α)} {k : String}
    (h : l.any (fun p => p.1 = k) = true) : ∃ v, dictGet k l = some v := by
  rcases List.any_eq_true.mp h with ⟨p, hp, hpk⟩
  rcases hf : List.find? (fun p => p.1 = k) l with _ | q
  · exact absurd (List.find?_eq_none.mp hf p hp) (by simpa using hpk)
  · exact ⟨q.2, by simp [dictGet, hf]⟩

theorem dictGet_eq_none_of_not_has {l : List (String × α)} {k : String}
    (h : ¬ l.any (fun p => p.1 = k) = true) : dictGet k l = none := by
  simp [dictGet, find?_eq_none_of_not_any k l h]

theorem dictHas_dictSet_self (k : String) (v : α) (l : List (String × α)) :
    (dictSet k v l).any (fun p => p.1 = k) = true := by
  rw [dictHas_eq_mem_keys, dictKeys_dictSet]
  split
  · exact (dictHas_eq_mem_keys k l).mp (by assumption)
  · simp

/-! ## Lemmas about `index_page` -/

theorem foldl_pages_eq (f : Store → α → Store)
    (hf : ∀ st a, (f st a).pages = st.pages) :
    ∀ (L : List α) (st : Store), (L.foldl f st).pages = st.pages := by
  intro L
  induction L with
  | nil => intro st; rfl
  | cons a t ih => intro st; rw [List.foldl_cons, ih, hf]

theorem index_page_skip (embed : String → List ℚ) (page : Page) (s : Store)
    (h : page_exists s page.url = true) :
    index_page embed page false s = (none, s) := by
  simp [index_page, h]

theorem index_page_pages (embed : String → List ℚ) (page : Page)
    (force : Bool) (s : Store) :
    ((index_page embed page force s).2).pages =
      if !force && page_exists s page.url then s.pages
      else dictSet page.url (pageDocOf page) s.pages := by
  unfold index_page
  split
  · rename_i h; simp [h]
  · rename_i h
    simp only [Bool.not_eq_true] at h
    rw [if_neg (by simpa using h)]
    exact foldl_pages_eq _ (fun st a => by dsimp only; split <;> rfl) _ _

theorem page_exists_after_index (embed : String → List ℚ) (page : Page)
    (s : Store) : page_exists ((index_page embed page false s).2) page.url = true := by
  by_cases h : page_exists s page.url
  · rw [index_page_skip embed page s h]; exact h
  · unfold page_exists
    rw [index_page_pages]
    rw [if_neg (by simpa using h)]
    exact dictHas_dictSet_self _ _ _

/-- C1: for every page `p`, `index_page(p, force=false)` run twice leaves the
store identical to the state after the first call, and the second call
returns `None` (the page is reported as skipped). -/
theorem index_page_idempotent (embed : String → List ℚ) (page : Page) (s : Store) :
    index_page embed page false ((index_page embed page false s).2) =
      (none, (index_page embed page false s).2) :=
  index_page_skip embed page _ (page_exists_after_index embed page s)

/-! ## Removal error policy -/

/-- C8 counterexample: with a store whose chunk lookup raises, `remove_page`
propagates the error to the caller instead of swallowing it and returning
normally. -/
theorem remove_page_error_counterexample :
    remove_page
      { pagesDelete := fun _ => Except.ok (),
        pagesGetWhereDomain := fun _ => Except.ok [],
        chunksGetWhereParent := fun _ => Except.error "db down",
        chunksGetWhereDomain := fun _ => Except.ok [],
        chunksDelete := fun _ => Except.ok () } "https://h.c/docs/a" =
      Except.error "db down" ∧
    (Except.error "db down" : Except String Unit) ≠ Except.ok () :=
  ⟨rfl, fun h => Except.noConfusion h⟩

/-- C8 (amended): in `remove_page` only the page-document delete is guarded —
its outcome never affects the result — while an error from the chunk lookup
propagates, and `remove_domain` is unguarded: an error from its page lookup,
or from its chunk lookup after a clean page pass, propagates. -/
theorem remove_error_policy (ops : StoreOps) (url domain e : String)
    (f : List String → Except String Unit) :
    (remove_page { ops with pagesDelete := f } url
        = remove_page { ops with pagesDelete := fun _ => Except.error e } url) ∧
    (ops.chunksGetWhereParent url = Except.error e →
      remove_page ops url = Except.error e) ∧
    (ops.pagesGetWhereDomain domain = Except.error e →
      remove_domain ops domain = Except.error e) ∧
    (ops.pagesGetWhereDomain domain = Except.ok [] →
      ops.chunksGetWhereDomain domain = Except.error e →
      remove_domain ops domain = Except.error e) := by
  refine ⟨?_, ?_, ?_, ?_⟩
  · unfold remove_page trySwallow
    dsimp only
    cases f [url] <;> rfl
  · intro h
    cases hpd : ops.pagesDelete [url] <;>
      simp [remove_page, trySwallow, hpd, h]
  · intro h
    simp [remove_domain, h]
  · intro hp hc
    simp [remove_domain, hp, hc]

/-- Witness for the C8 amended theorem at a concrete failing store. -/
theorem remove_error_policy_witness :
    remove_page
      { pagesDelete := fun _ => Except.ok (),
        pagesGetWhereDomain := fun _ => Except.ok [],
        chunksGetWhereParent := fun _ => Except.error "boom",
        chunksGetWhereDomain := fun _ => Except.ok [],
        chunksDelete := fun _ => Except.ok () } "u" = Except.error "boom" :=
  (remove_error_policy _ "u" "d" "boom" (fun _ => Except.ok ())).2.1 rfl

/-! ## Title rule -/

/-- C3 counterexample: on a page with no `title` element but a present `h1`,
the normalizer returns the last URL piece (`"page"`), not the `h1` text the
claim requires (`"Hello"`). -/
theorem title_counterexample :
    (parse_page "x.com" "https://x.com/docs/page"
      { emptySoup with firstH1 := some "Hello" }).title = "page" ∧
    specTitle none (some "Hello") "https://x.com/docs/page" = "Hello" ∧
    ("page" : String) ≠ "Hello" := by
  refine ⟨by decide, by decide, by decide⟩

/-- C3 (amended): the returned title is the stripped `title` string when one
is present and otherwise the last `/`-separated piece of the URL string; the
first `h1` is never consulted. -/
theorem title_rule (domain url : String) (soup : Soup) :
    (parse_page domain url soup).title =
      (match soup.titleString with
       | some s => pyStrip s
       | none => (pySplit '/' url).getLastD "") ∧
    ∀ h1, (parse_page domain url { soup with firstH1 := h1 }).title =
      (parse_page domain url soup).title :=
  ⟨rfl, fun _ => rfl⟩

/-! ## Crawler lemmas -/

theorem foldl_cpages_eq (f : CrawlState → α → CrawlState)
    (hf : ∀ st a, (f st a).pages = st.pages) :
    ∀ (L : List α) (st : CrawlState), (L.foldl f st).pages = st.pages := by
  intro L
  induction L with
  | nil => intro st; rfl
  | cons a t ih => intro st; rw [List.foldl_cons, ih, hf]

theorem fetch_page_url (net : String → Option Soup) (domain url : String)
    (page : Page) (h : fetch_page net domain url = some page) : page.url = url := by
  unfold fetch_page at h
  cases hn : net url with
  | none => rw [hn] at h; cases h
  | some soup =>
    rw [hn] at h
    have : parse_page domain url soup = page := by simpa using h
    rw [← this]
    rfl

theorem crawlBatch_pages_le (net : String → Option Soup) (domain : String)
    (batch : List String) (st : CrawlState) :
    (crawlBatch net domain batch st).pages.length ≤ st.pages.length + batch.length := by
  induction batch generalizing st with
  | nil => simp [crawlBatch]
  | cons u t ih =>
    have hstep : ∀ st' : CrawlState,
        (crawlBatch net domain t st').pages.length ≤ st'.pages.length + t.length := ih
    unfold crawlBatch
    rw [List.foldl_cons]
    unfold crawlBatch at hstep
    rcases hf : fetch_page net domain u with _ | page
    · simp only [hf]
      refine le_trans (hstep st) ?_
      simp [Nat.add_le_add_iff_left]
    · simp only [hf]
      refine le_trans (hstep _) ?_
      have h2 : (page.links.foldl (fun (st : CrawlState) (link : String) =>
          if link ∈ st.seen then st
          else { st with seen := st.seen ++ [link], queue := st.queue ++ [link] })
          { st with pages := dictSet u page st.pages }).pages
          = dictSet u page st.pages :=
        foldl_cpages_eq _ (fun st a => by split <;> rfl) _ _
      rw [h2]
      have h1 := dictSet_length_le u page st.pages
      simp only [List.length_cons]
      omega

theorem crawlLoop_pages_le (net : String → Option Soup) (domain : String)
    (maxPages : ℕ) : ∀ (fuel : ℕ) (st : CrawlState),
    (crawlLoop net domain maxPages fuel st).pages.length ≤
      max st.pages.length (maxPages + 9) := by
  intro fuel
  induction fuel with
  | zero => intro st; exact Nat.le_max_left _ _
  | succ n ih =>
    intro st
    unfold crawlLoop
    split
    · exact Nat.le_max_left _ _
    · rename_i hguard
      push_neg at hguard
      have hlt : st.pages.length < maxPages := hguard.2
      have hb : (crawlBatch net domain (st.queue.take 10)
          { st with queue := st.queue.drop 10 }).pages.length ≤
            st.pages.length + 10 := by
        refine le_trans (crawlBatch_pages_le net domain _ _) ?_
        have ht : (st.queue.take 10).length ≤ 10 := by
          simp
        dsimp only
        omega
      have hrec := ih (crawlBatch net domain (st.queue.take 10)
        { st with queue := st.queue.drop 10 })
      omega

/-- C2 counterexample: with `max_pages = 1` and a two-URL seed, the single
batch fetches both URLs, so the result has 2 > 1 entries. -/
theorem crawl_bound_counterexample :
    (crawl_domain (fun _ => some emptySoup) "h.c" "https://h.c"
      ["https://h.c/a", "https://h.c/b"] 1 5).length = 2 ∧ ¬ (2 ≤ 1) :=
  ⟨by decide, by decide⟩

/-- C2 (amended): `crawl_domain(..., max_pages=N)` returns at most `N + 9`
entries — the `len(pages) < max_pages` guard runs once per batch and a batch
of up to 10 concurrent fetches can overshoot the cap by at most 9. -/
theorem crawl_domain_bound (net : String → Option Soup)
    (domain base_url : String) (sitemapUrls : List String)
    (maxPages fuel : ℕ) :
    (crawl_domain net domain base_url sitemapUrls maxPages fuel).length ≤
      maxPages + 9 := by
  unfold crawl_domain
  have h := crawlLoop_pages_le net domain maxPages fuel
    { queue := if sitemapUrls = [] then [base_url] else sitemapUrls,
      seen := if sitemapUrls = [] then [base_url] else sitemapUrls, pages := [] }
  simpa using h

/-! ## Result-map keying -/

theorem crawlBatch_keyed (net : String → Option Soup) (domain : String)
    (batch : List String) (st : CrawlState)
    (h : ∀ p ∈ st.pages, p.2.url = p.1) :
    ∀ p ∈ (crawlBatch net domain batch st).pages, p.2.url = p.1 := by
  induction batch generalizing st with
  | nil => exact h
  | cons u t ih =>
    unfold crawlBatch
    rw [List.foldl_cons]
    unfold crawlBatch at ih
    rcases hf : fetch_page net domain u with _ | page
    · simp only [hf]
      exact ih st h
    · simp only [hf]
      refine ih _ (fun p hp => ?_)
      have h2 : (page.links.foldl (fun (st : CrawlState) (link : String) =>
          if link ∈ st.seen then st
          else { st with seen := st.seen ++ [link], queue := st.queue ++ [link] })
          { st with pages := dictSet u page st.pages }).pages
          = dictSet u page st.pages :=
        foldl_cpages_eq _ (fun st a => by split <;> rfl) _ _
      rw [h2] at hp
      rcases mem_dictSet_elim hp with rfl | hpm
      · exact fetch_page_url net domain u page hf
      · exact h p hpm

theorem crawlLoop_keyed (net : String → Option Soup) (domain : String)
    (maxPages : ℕ) : ∀ (fuel : ℕ) (st : CrawlState),
    (∀ p ∈ st.pages, p.2.url = p.1) →
    ∀ p ∈ (crawlLoop net domain maxPages fuel st).pages, p.2.url = p.1 := by
  intro fuel
  induction fuel with
  | zero => intro st h; exact h
  | succ n ih =>
    intro st h
    unfold crawlLoop
    split
    · exact h
    · exact ih _ (crawlBatch_keyed net domain _ _ h)

/-- C10: every entry of the result maps of `crawl_multiple` and
`crawl_domain` is keyed by exactly the URL that was fetched to produce it:
the stored record's `url` field equals its key. -/
theorem crawl_results_keyed (net : String → Option Soup)
    (domain base_url : String) (urls sitemapUrls : List String)
    (maxPages fuel : ℕ) :
    (∀ p ∈ crawl_multiple net domain urls, p.2.url = p.1) ∧
    (∀ p ∈ crawl_domain net domain base_url sitemapUrls maxPages fuel,
      p.2.url = p.1) := by
  constructor
  · unfold crawl_multiple
    have : ∀ (L : List String) (acc : List (String × Page)),
        (∀ p ∈ acc, p.2.url = p.1) →
        ∀ p ∈ L.foldl (fun pages url =>
          match fetch_page net domain url with
          | some page => dictSet url page pages
          | none => pages) acc, p.2.url = p.1 := by
      intro L
      induction L with
      | nil => intro acc h; exact h
      | cons u t ihL =>
        intro acc h
        rw [List.foldl_cons]
        rcases hf : fetch_page net domain u with _ | page
        · simp only [hf]
          exact ihL acc h
        · simp only [hf]
          refine ihL _ (fun p hp => ?_)
          rcases mem_dictSet_elim hp with rfl | hpm
          · exact fetch_page_url net domain u page hf
          · exact h p hpm
    exact this urls [] (by intro p hp; cases hp)
  · unfold crawl_domain
    exact crawlLoop_keyed net domain maxPages fuel _ (by intro p hp; cases hp)

/-- Witness for C10 at a concrete one-page crawl. -/
theorem crawl_results_keyed_witness :
    (parse_page "h.c" "https://h.c/a" emptySoup).url = "https://h.c/a" :=
  (crawl_results_keyed (fun _ => some emptySoup) "h.c" "https://h.c"
      ["https://h.c/a"] [] 1 1).1
    ("https://h.c/a", parse_page "h.c" "https://h.c/a" emptySoup) (by decide)

/-! ## Link canonicalization -/

theorem head?_dropWhile_ne (p : Char → Bool) (l : List Char) (x : Char)
    (h : (l.dropWhile p).head? = some x) : p x = false := by
  induction l with
  | nil => cases h
  | cons a t ih =>
    by_cases ha : p a
    · rw [List.dropWhile_cons_of_pos ha] at h
      exact ih h
    · rw [List.dropWhile_cons_of_neg ha] at h
      simp only [List.head?_cons, Option.some.injEq] at h
      subst h
      exact Bool.not_eq_true _ ▸ (by simpa using ha)

theorem mem_rstripChar (c : Char) (l : List Char) (x : Char)
    (h : x ∈ rstripChar c l) : x ∈ l := by
  unfold rstripChar at h
  rw [List.mem_reverse] at h
  have := (List.dropWhile_sublist (fun y => y = c)).mem h
  exact List.mem_reverse.mp this

theorem rstripChar_getLast_ne (c : Char) (l : List Char) :
    (rstripChar c l).getLast? ≠ some c := by
  unfold rstripChar
  rw [List.getLast?_reverse]
  intro h
  have := head?_dropWhile_ne _ _ _ h
  simp at this

theorem canonLink_no_hash (url href : String) : '#' ∉ (canonLink url href).data := by
  intro h
  have h1 : '#' ∈ (urljoin url href).data.takeWhile (fun c => decide (c ≠ '#')) :=
    mem_rstripChar '/' _ '#' h
  have := List.mem_takeWhile_imp h1
  simp at this

theorem canonLink_no_trailing_slash (url href : String) :
    (canonLink url href).data.getLast? ≠ some '/' :=
  rstripChar_getLast_ne '/' _

/-- C4 counterexample: the href `/p?x=1` on page `https://example.com/a` is
emitted as `https://example.com/p?x=1` — the query survives — while the
claimed canonical form drops it. -/
theorem links_canonical_counterexample :
    (parse_page "example.com" "https://example.com/a"
      { emptySoup with anchors := ["/p?x=1"] }).links =
        ["https://example.com/p?x=1"] ∧
    specCanonical "https://example.com/a" "/p?x=1" = "https://example.com/p" ∧
    ("https://example.com/p?x=1" : String) ≠ "https://example.com/p" :=
  ⟨by decide, by decide, by decide⟩

/-- C4 (amended): every emitted link is `urljoin(url, href)` with the
fragment part (from the first `#`) dropped and trailing slashes stripped,
kept only when its network location equals the crawl domain verbatim; the
query string and the case of scheme and host are preserved (no lowercasing
or query removal happens). -/
theorem links_canonical (domain url : String) (soup : Soup) :
    ∀ l ∈ (parse_page domain url soup).links,
      (∃ href ∈ soup.anchors, l = canonLink url href) ∧
      netloc l = domain ∧ '#' ∉ l.data ∧ l.data.getLast? ≠ some '/' := by
  show ∀ l ∈ soup.anchors.foldl (fun links href =>
      let full := canonLink url href
      if netloc full = domain ∧ full ∉ links then links ++ [full] else links) [], _
  have main : ∀ (L : List String), (∀ h ∈ L, h ∈ soup.anchors) →
      ∀ (acc : List String), (∀ l ∈ acc,
        (∃ href ∈ soup.anchors, l = canonLink url href) ∧ netloc l = domain) →
      ∀ l ∈ L.foldl (fun links href =>
        let full := canonLink url href
        if netloc full = domain ∧ full ∉ links then links ++ [full] else links) acc,
        (∃ href ∈ soup.anchors, l = canonLink url href) ∧ netloc l = domain := by
    intro L
    induction L with
    | nil => intro _ acc hacc; exact hacc
    | cons a t ih =>
      intro hsub acc hacc
      rw [List.foldl_cons]
      refine ih (fun h hh => hsub h (List.mem_cons_of_mem a hh)) _ ?_
      intro l hl
      dsimp only at hl
      split at hl
      · rename_i hcond
        rcases List.mem_append.mp hl with hl | hl
        · exact hacc l hl
        · have : l = canonLink url a := by simpa using hl
          subst this
          exact ⟨⟨a, hsub a (List.mem_cons_self a t), rfl⟩, hcond.1⟩
      · exact hacc l hl
  intro l hl
  have h1 := main soup.anchors (fun h hh => hh) [] (by intro l hl; cases hl) l hl
  rcases h1 with ⟨⟨href, hhref, rfl⟩, hdom⟩
  exact ⟨⟨href, hhref, rfl⟩, hdom, canonLink_no_hash url href,
    canonLink_no_trailing_slash url href⟩

/-- Witness for the C4 amended theorem at a concrete page. -/
theorem links_canonical_witness :
    (∃ href ∈ ({ emptySoup with anchors := ["/b"] } : Soup).anchors,
      ("https://example.com/b" : String) = canonLink "https://example.com/a" href) ∧
    netloc "https://example.com/b" = "example.com" ∧
    '#' ∉ ("https://example.com/b" : String).data ∧
    ("https://example.com/b" : String).data.getLast? ≠ some '/' :=
  links_canonical "example.com" "https://example.com/a"
    { emptySoup with anchors := ["/b"] } "https://example.com/b" (by decide)

/-! ## BM25 normalization and blending -/

theorem foldl_if_append (P : α → Prop) [DecidablePred P] (g : α → β) :
    ∀ (L : List α) (acc : List β),
    L.foldl (fun acc x => if P x then acc ++ [g x] else acc) acc
      = acc ++ L.filterMap (fun x => if P x then some (g x) else none) := by
  intro L
  induction L with
  | nil => intro acc; simp
  | cons a t ih =>
    intro acc
    rw [List.foldl_cons]
    by_cases ha : P a
    · rw [if_pos ha, ih, List.filterMap_cons, if_pos ha]
      simp
    · rw [if_neg ha, ih, List.filterMap_cons, if_neg ha]

theorem filterMap_if_sublist (P : α → Prop) [DecidablePred P] (f : α → β) :
    ∀ L : List α,
    (L.filterMap (fun x => if P x then some (f x) else none)).Sublist (L.map f) := by
  intro L
  induction L with
  | nil => simp
  | cons a t ih =>
    rw [List.filterMap_cons, List.map_cons]
    by_cases ha : P a
    · rw [if_pos ha]; exact ih.cons₂ (f a)
    · rw [if_neg ha]; exact ih.cons (f a)

theorem map_fst_zip_sublist : ∀ (l : List α) (r : List β),
    ((l.zip r).map Prod.fst).Sublist l := by
  intro l
  induction l with
  | nil => intro r; simp
  | cons a t ih =>
    intro r
    cases r with
    | nil => simp
    | cons b s =>
      rw [List.zip_cons_cons, List.map_cons]
      exact (ih s).cons₂ a

theorem bm25_search_eq (cands : List String) (raw : List ℚ) :
    bm25_search cands raw = if cands = [] then [] else
      (cands.zip raw).filterMap (fun p =>
        if p.2 > 0 then
          some (p.1, p.2 / (if raw.foldr max 0 > 0 then raw.foldr max 0 else 1))
        else none) := by
  unfold bm25_search
  split
  · rfl
  · dsimp only
    exact (foldl_if_append (fun p : String × ℚ => p.2 > 0)
      (fun p => (p.1, p.2 / (if raw.foldr max 0 > 0 then raw.foldr max 0 else 1)))
      (cands.zip raw) []).trans (List.nil_append _)

theorem filterMap_keys_sublist (m : ℚ) : ∀ L : List (String × ℚ),
    (dictKeys (L.filterMap (fun p =>
      if p.2 > 0 then some (p.1, p.2 / m) else none))).Sublist (L.map Prod.fst) := by
  intro L
  induction L with
  | nil => simp [dictKeys]
  | cons a t ih =>
    rw [List.filterMap_cons, List.map_cons]
    by_cases ha : a.2 > 0
    · rw [if_pos ha]
      exact List.Sublist.cons₂ a.1 ih
    · rw [if_neg ha]
      exact List.Sublist.cons a.1 ih

theorem bm25_keys_sublist (cands : List String) (raw : List ℚ) :
    (dictKeys (bm25_search cands raw)).Sublist cands := by
  rw [bm25_search_eq]
  split
  · simp [dictKeys]
  · exact List.Sublist.trans
      (filterMap_keys_sublist (if raw.foldr max 0 > 0 then raw.foldr max 0 else 1)
        (cands.zip raw))
      (map_fst_zip_sublist cands raw)

theorem list_le_foldr_max (x : ℚ) : ∀ l : List ℚ, x ∈ l → x ≤ l.foldr max 0 := by
  intro l
  induction l with
  | nil => intro h; cases h
  | cons a t ih =>
    intro h
    rcases List.mem_cons.mp h with rfl | ht
    · exact le_max_left _ _
    · exact le_trans (ih ht) (le_max_right _ _)

theorem bm25_search_pos_le_one (cands : List String) (raw : List ℚ) :
    ∀ p ∈ bm25_search cands raw, 0 < p.2 ∧ p.2 ≤ 1 := by
  intro p hp
  rw [bm25_search_eq] at hp
  split at hp
  · cases hp
  · rcases List.mem_filterMap.mp hp with ⟨q, hq, hqe⟩
    by_cases hq2 : q.2 > 0
    · rw [if_pos hq2] at hqe
      have hqp := Option.some.inj hqe
      subst hqp
      have hraw : q.2 ∈ raw := (List.of_mem_zip hq).2
      have hle : q.2 ≤ raw.foldr max 0 := list_le_foldr_max _ _ hraw
      have hmaxpos : raw.foldr max 0 > 0 := lt_of_lt_of_le hq2 hle
      rw [if_pos hmaxpos]
      exact ⟨div_pos hq2 hmaxpos, (div_le_one hmaxpos).mpr hle⟩
    · rw [if_neg hq2] at hqe; cases hqe

theorem dictKeys_update (k : String) (f : α → α) (l : List (String × α)) :
    dictKeys (l.map (fun q => if q.1 = k then (q.1, f q.2) else q)) = dictKeys l := by
  unfold dictKeys
  rw [List.map_map]
  congr 1
  funext q
  by_cases hq : q.1 = k <;> simp [hq]

theorem dictGet_update_self (k : String) (f : α → α) (l : List (String × α)) :
    dictGet k (l.map (fun q => if q.1 = k then (q.1, f q.2) else q)) =
      (dictGet k l).map f := by
  induction l with
  | nil => rfl
  | cons a t ih =>
    by_cases ha : a.1 = k
    · rw [List.map_cons, if_pos ha]
      unfold dictGet
      rw [List.find?_cons_of_pos _ (by simpa using ha),
        List.find?_cons_of_pos _ (by simpa using ha)]
      rfl
    · rw [List.map_cons, if_neg ha]
      unfold dictGet
      rw [List.find?_cons_of_neg _ (by simpa using ha),
        List.find?_cons_of_neg _ (by simpa using ha)]
      exact ih

theorem dictGet_update_ne (k k' : String) (f : α → α) (l : List (String × α))
    (h : k' ≠ k) :
    dictGet k' (l.map (fun q => if q.1 = k then (q.1, f q.2) else q)) =
      dictGet k' l := by
  induction l with
  | nil => rfl
  | cons a t ih =>
    by_cases ha : a.1 = k
    · have ha' : ¬ a.1 = k' := fun hh => h (by rw [← hh, ha])
      rw [List.map_cons, if_pos ha]
      unfold dictGet
      rw [List.find?_cons_of_neg _ (by simpa using ha'),
        List.find?_cons_of_neg _ (by simpa using ha')]
      exact ih
    · rw [List.map_cons, if_neg ha]
      by_cases ha2 : a.1 = k'
      · unfold dictGet
        rw [List.find?_cons_of_pos _ (by simpa using ha2),
          List.find?_cons_of_pos _ (by simpa using ha2)]
      · unfold dictGet
        rw [List.find?_cons_of_neg _ (by simpa using ha2),
          List.find?_cons_of_neg _ (by simpa using ha2)]
        exact ih

theorem dictHas_update (k k' : String) (f : α → α) (l : List (String × α)) :
    (l.map (fun q => if q.1 = k then (q.1, f q.2) else q)).any (fun p => p.1 = k') =
      l.any (fun p => p.1 = k') := by
  rw [Bool.eq_iff_iff, dictHas_eq_mem_keys, dictHas_eq_mem_keys, dictKeys_update]

theorem blend_dictGet (bm : List (String × ℚ)) :
    ∀ (acc : List (String × ℚ)), (dictKeys bm).Nodup →
    (∀ p ∈ bm, acc.any (fun q => q.1 = p.1) = true) → ∀ u,
    dictGet u (blend acc bm) =
      match dictGet u bm with
      | some b => (dictGet u acc).map (fun d => d * (7/10) + b * (3/10))
      | none => dictGet u acc := by
  induction bm with
  | nil =>
    intro acc _ _ u
    rfl
  | cons p rest ih =>
    intro acc hnd hhas u
    unfold blend
    rw [List.foldl_cons]
    unfold blend at ih
    have hp : dictHas p.1 acc = true := hhas p (List.mem_cons_self p rest)
    rw [if_pos hp]
    have hnd' : (dictKeys rest).Nodup := by
      rw [dictKeys, List.map_cons] at hnd
      exact (List.nodup_cons.mp hnd).2
    have hhead : p.1 ∉ dictKeys rest := by
      rw [dictKeys, List.map_cons] at hnd
      exact (List.nodup_cons.mp hnd).1
    have hhas' : ∀ q ∈ rest,
        (acc.map (fun r => if r.1 = p.1 then (r.1, r.2 * (7/10) + p.2 * (3/10)) else r)).any
          (fun r => r.1 = q.1) = true := by
      intro q hq
      rw [dictHas_update p.1 q.1 (fun d => d * (7/10) + p.2 * (3/10)) acc]
      exact hhas q (List.mem_cons_of_mem p hq)
    rw [ih _ hnd' hhas' u]
    by_cases hu : u = p.1
    · have hrest : dictGet u rest = none := by
        rw [hu]
        exact dictGet_eq_none_of_not_has
          (fun h => hhead ((dictHas_eq_mem_keys _ _).mp h))
      rw [hrest]
      have hcons : dictGet u (p :: rest) = some p.2 := by
        unfold dictGet
        rw [List.find?_cons_of_pos _ (by simp [hu.symm])]
        rfl
      rw [hcons, hu]
      exact dictGet_update_self p.1 (fun d => d * (7/10) + p.2 * (3/10)) acc
    · have hcons : dictGet u (p :: rest) = dictGet u rest := by
        unfold dictGet
        rw [List.find?_cons_of_neg _ (by simpa using fun hh => hu hh.symm)]
      rw [hcons, dictGet_update_ne p.1 u (fun d => d * (7/10) + p.2 * (3/10)) acc hu]

/-- C5: for every candidate URL `u` produced by the dense phase, the blended
final score is `0.7 · dense + 0.3 · bm25` when `u` has a (necessarily
positive) normalized BM25 score, and the dense score unchanged otherwise. -/
theorem blend_final_scores (dense : List (String × ℚ)) (raw : List ℚ)
    (hnd : (dictKeys dense).Nodup) (u : String) (d : ℚ) (hu : (u, d) ∈ dense) :
    dictGet u (blend dense (bm25_search (dictKeys dense) raw)) =
      some (match dictGet u (bm25_search (dictKeys dense) raw) with
            | some b => d * (7/10) + b * (3/10)
            | none => d) ∧
    ∀ b, dictGet u (bm25_search (dictKeys dense) raw) = some b → 0 < b ∧ b ≤ 1 := by
  have hsub := bm25_keys_sublist (dictKeys dense) raw
  have hbnd : (dictKeys (bm25_search (dictKeys dense) raw)).Nodup :=
    hsub.nodup hnd
  have hbhas : ∀ p ∈ bm25_search (dictKeys dense) raw,
      dense.any (fun q => q.1 = p.1) = true := by
    intro p hp
    rw [dictHas_eq_mem_keys]
    exact hsub.mem (List.mem_map.mpr ⟨p, hp, rfl⟩)
  constructor
  · rw [blend_dictGet _ dense hbnd hbhas u, dictGet_eq_some_of_mem hnd hu]
    cases dictGet u (bm25_search (dictKeys dense) raw) <;> rfl
  · intro b hb
    exact bm25_search_pos_le_one _ raw (u, b) (mem_of_dictGet_eq_some hb)

/-- Witness for C5 at a concrete two-candidate store: candidate `a` has raw
BM25 score 2 (blended), candidate `b` raw score 0 (dense score kept). -/
theorem blend_final_scores_witness :
    dictGet "a" (blend [("a", (1:ℚ)/2), ("b", 3/4)]
        (bm25_search (dictKeys [("a", (1:ℚ)/2), ("b", 3/4)]) [2, 0])) =
      some (match dictGet "a" (bm25_search (dictKeys [("a", (1:ℚ)/2), ("b", 3/4)]) [2, 0]) with
            | some b => (1:ℚ)/2 * (7/10) + b * (3/10)
            | none => (1:ℚ)/2) :=
  (blend_final_scores [("a", (1:ℚ)/2), ("b", 3/4)] [2, 0] (by decide) "a" ((1:ℚ)/2)
    (List.mem_cons_self _ _)).1

/-! ## Breadcrumb fallback: stripping slashes does not change the non-empty
path segments -/

theorem splitChar_ne_nil (c : Char) : ∀ l : List Char, splitChar c l ≠ [] := by
  intro l
  cases l with
  | nil => simp [splitChar]
  | cons x xs =>
    unfold splitChar
    split
    · simp
    · split <;> simp

theorem splitChar_append_sep (c : Char) : ∀ l : List Char,
    splitChar c (l ++ [c]) = splitChar c l ++ [[]] := by
  intro l
  induction l with
  | nil => simp [splitChar]
  | cons x xs ih =>
    by_cases hx : x = c
    · simp only [List.cons_append]
      unfold splitChar
      rw [if_pos hx, if_pos hx, ih]
      simp
    · simp only [List.cons_append]
      unfold splitChar
      rw [if_neg hx, if_neg hx, ih]
      rcases hsp : splitChar c xs with _ | ⟨p, ps⟩
      · exact absurd hsp (splitChar_ne_nil c xs)
      · simp

theorem splitChar_append_replicate (c : Char) (k : ℕ) : ∀ l : List Char,
    (splitChar c (l ++ List.replicate k c)).filter (· ≠ []) =
      (splitChar c l).filter (· ≠ []) := by
  induction k with
  | zero => intro l; simp
  | succ n ih =>
    intro l
    have hsplit : l ++ List.replicate (n + 1) c = (l ++ [c]) ++ List.replicate n c := by
      simp [List.replicate_succ]
    rw [hsplit, ih (l ++ [c]), splitChar_append_sep, List.filter_append]
    simp

theorem rstrip_decomposition (c : Char) (l : List Char) :
    l = rstripChar c l ++
      List.replicate (l.reverse.takeWhile (· = c)).length c := by
  have htw : (l.reverse.takeWhile (· = c)).reverse =
      List.replicate (l.reverse.takeWhile (· = c)).length c := by
    rw [List.reverse_eq_iff, List.reverse_replicate]
    rw [List.eq_replicate_length]
    intro b hb
    simpa using List.mem_takeWhile_imp hb
  calc l = l.reverse.reverse := (List.reverse_reverse l).symm
    _ = ((l.reverse.takeWhile (· = c)) ++ (l.reverse.dropWhile (· = c))).reverse := by
        rw [List.takeWhile_append_dropWhile]
    _ = (l.reverse.dropWhile (· = c)).reverse ++ (l.reverse.takeWhile (· = c)).reverse := by
        rw [List.reverse_append]
    _ = rstripChar c l ++ List.replicate (l.reverse.takeWhile (· = c)).length c := by
        rw [htw]; rfl

theorem splitChar_dropWhile_filter (c : Char) : ∀ l : List Char,
    (splitChar c (l.dropWhile (· = c))).filter (· ≠ []) =
      (splitChar c l).filter (· ≠ []) := by
  intro l
  induction l with
  | nil => rfl
  | cons x xs ih =>
    by_cases hx : x = c
    · rw [List.dropWhile_cons_of_pos (by simpa using hx), ih]
      conv_rhs => unfold splitChar
      rw [if_pos hx]
      simp
    · rw [List.dropWhile_cons_of_neg (by simpa using hx)]

theorem splitChar_stripChar_filter (c : Char) (l : List Char) :
    (splitChar c (stripChar c l)).filter (· ≠ []) =
      (splitChar c l).filter (· ≠ []) := by
  unfold stripChar
  calc (splitChar c (rstripChar c (l.dropWhile (· = c)))).filter (· ≠ [])
      = (splitChar c (rstripChar c (l.dropWhile (· = c)) ++
          List.replicate ((l.dropWhile (· = c)).reverse.takeWhile (· = c)).length c)).filter
            (· ≠ []) := (splitChar_append_replicate c _ _).symm
    _ = (splitChar c (l.dropWhile (· = c))).filter (· ≠ []) := by
        rw [← rstrip_decomposition]
    _ = (splitChar c l).filter (· ≠ []) := splitChar_dropWhile_filter c l

/-- C9 counterexample: on a URL with an empty path and no breadcrumb or
sidebar probe, the normalizer returns the URL itself, while the claimed rule
(join of the title-cased path segments) yields the empty string. -/
theorem breadcrumb_fallback_counterexample :
    extract_breadcrumb emptySoup "https://example.com" = "https://example.com" ∧
    specBreadcrumbFallback "https://example.com" = "" ∧
    ("https://example.com" : String) ≠ "" :=
  ⟨by decide, by decide, by decide⟩

/-- C9 (amended): when neither the structured breadcrumb probe nor the
sidebar probe yields anything, the breadcrumb is the title-cased URL path
segments joined by `" > "` — except that a URL whose path has no segments
yields the URL itself. -/
theorem breadcrumb_fallback (soup : Soup) (url : String)
    (h1 : ∀ a cur, soup.breadcrumbParts = some (a, cur) → a = [] ∧ cur = none)
    (h2 : ∀ ls act, soup.sidebarWalk = some (ls, act) → ls = []) :
    extract_breadcrumb soup url =
      if ((splitChar '/' (urlPath url).data).filter (· ≠ [])) ≠ []
      then specBreadcrumbFallback url else url := by
  have hstrip := splitChar_stripChar_filter '/' (urlPath url).data
  unfold extract_breadcrumb
  have hs3 : (let path := stripChar '/' (urlPath url).data
      let parts := (splitChar '/' path).filter (fun p => p ≠ [])
      let parts := parts.map (fun p => pyTitle (replaceChar '_' ' ' (replaceChar '-' ' ' p)))
      if parts ≠ [] then String.mk (joinSep " > ".data parts) else url) =
      if ((splitChar '/' (urlPath url).data).filter (· ≠ [])) ≠ []
      then specBreadcrumbFallback url else url := by
    dsimp only
    rw [hstrip]
    unfold specBreadcrumbFallback
    by_cases hnil : ((splitChar '/' (urlPath url).data).filter (· ≠ [])) = []
    · rw [hnil]
      simp
    · have hmap : (((splitChar '/' (urlPath url).data).filter (· ≠ [])).map
          (fun p => pyTitle (replaceChar '_' ' ' (replaceChar '-' ' ' p)))) ≠ [] :=
        fun h => hnil (List.map_eq_nil_iff.mp h)
      rw [if_pos hmap, if_pos hnil]
  cases hbc : soup.breadcrumbParts with
  | some pair =>
    obtain ⟨a, cur⟩ := pair
    obtain ⟨rfl, rfl⟩ := h1 a cur hbc
    simp only []
    cases hsw : soup.sidebarWalk with
    | some pair2 =>
      obtain ⟨ls, act⟩ := pair2
      obtain rfl := h2 ls act hsw
      simpa using hs3
    | none => simpa using hs3
  | none =>
    cases hsw : soup.sidebarWalk with
    | some pair2 =>
      obtain ⟨ls, act⟩ := pair2
      obtain rfl := h2 ls act hsw
      simpa using hs3
    | none => simpa using hs3

/-- Witness for the C9 amended theorem on a docs URL with two path
segments. -/
theorem breadcrumb_fallback_witness :
    extract_breadcrumb emptySoup "https://help.moveworks.com/docs/compound-actions" =
      if ((splitChar '/' (urlPath "https://help.moveworks.com/docs/compound-actions").data).filter
          (· ≠ [])) ≠ []
      then specBreadcrumbFallback "https://help.moveworks.com/docs/compound-actions"
      else "https://help.moveworks.com/docs/compound-actions" :=
  breadcrumb_fallback emptySoup "https://help.moveworks.com/docs/compound-actions"
    (fun a cur h => by cases h) (fun ls act h => by cases h)

/-! ## Force re-index shape -/

theorem chunkId_ne_digits (u : String) (i j : ℕ)
    (h : toString i ≠ toString j) : chunkId u i ≠ chunkId u j := by
  intro hc
  apply h
  unfold chunkId at hc
  have hd := congrArg String.data hc
  simp only [String.data_append] at hd
  rw [List.append_assoc, List.append_assoc] at hd
  have h1 := List.append_cancel_left hd
  have h2 := List.append_cancel_left h1
  exact congrArg String.mk h2

theorem foldl_store_pred (P : Store → Prop) (f : Store → α → Store) :
    ∀ L : List α, (∀ st a, a ∈ L → P st → P (f st a)) →
    ∀ st, P st → P (L.foldl f st) := by
  intro L
  induction L with
  | nil => intro _ st h; exact h
  | cons a t ih =>
    intro hstep st h
    rw [List.foldl_cons]
    exact ih (fun st b hb => hstep st b (List.mem_cons_of_mem a hb)) _
      (hstep st a (List.mem_cons_self a t) h)

theorem mem_enum_pageViews (page : Page) :
    ∀ e ∈ (pageViews page).enum, e.1 < 3 := by
  intro e he
  have hv : (pageViews page).enum =
      [(0, (page.breadcrumb, "breadcrumb")),
       (1, (page.title ++ " - " ++ page.breadcrumb, "title_path")),
       (2, (String.mk ((enrichedContent page).data.take 2000), "full_content"))] := rfl
  rw [hv] at he
  simp only [List.mem_cons, List.not_mem_nil, or_false] at he
  rcases he with rfl | rfl | rfl <;> norm_num

/-- The chunk-collection part of `StoreWF`. -/
theorem index_chunkfold_wf (embed : String → List ℚ) (page : Page)
    (L : List (ℕ × String × String)) (hL : ∀ e ∈ L, e.1 < 3) (st : Store)
    (hnd : (dictKeys st.chunks).Nodup)
    (hinv : ∀ p ∈ st.chunks, ∃ i < 3, p.1 = chunkId p.2.parent_url i) :
    (dictKeys ((L.foldl (fun s entry =>
      if pyStrip entry.2.1 = "" then s
      else
        let chunks' := dictSet (chunkId page.url entry.1)
          (viewChunk embed page entry.2.1 entry.2.2) s.chunks
        { s with chunks := chunks' }) st)).chunks).Nodup ∧
    (∀ p ∈ ((L.foldl (fun s entry =>
      if pyStrip entry.2.1 = "" then s
      else
        let chunks' := dictSet (chunkId page.url entry.1)
          (viewChunk embed page entry.2.1 entry.2.2) s.chunks
        { s with chunks := chunks' }) st)).chunks,
      ∃ i < 3, p.1 = chunkId p.2.parent_url i) := by
  refine foldl_store_pred (fun s => (dictKeys s.chunks).Nodup ∧
      ∀ p ∈ s.chunks, ∃ i < 3, p.1 = chunkId p.2.parent_url i)
    (fun s entry =>
      if pyStrip entry.2.1 = "" then s
      else
        let chunks' := dictSet (chunkId page.url entry.1)
          (viewChunk embed page entry.2.1 entry.2.2) s.chunks
        { s with chunks := chunks' }) L ?_ st ⟨hnd, hinv⟩
  intro s e he hP
  dsimp only
  split
  · exact hP
  · refine ⟨dictKeys_nodup_dictSet _ _ _ hP.1, ?_⟩
    intro p hp
    rcases mem_dictSet_elim hp with rfl | hpm
    · exact ⟨e.1, hL e he, rfl⟩
    · exact hP.2 p hpm

theorem filter_key_length_nodup {l : List (String × α)} {k : String}
    (hnd : (dictKeys l).Nodup) (hmem : k ∈ dictKeys l) :
    (l.filter (fun p => p.1 = k)).length = 1 := by
  induction l with
  | nil => cases hmem
  | cons a t ih =>
    rw [dictKeys, List.map_cons] at hnd hmem
    have hnd' := List.nodup_cons.mp hnd
    by_cases ha : a.1 = k
    · rw [List.filter_cons_of_pos (by simpa using ha)]
      have hnil : (t.filter (fun p => p.1 = k)) = [] := by
        rw [List.filter_eq_nil_iff]
        intro p hp hpk
        apply hnd'.1
        have hk : p.1 = k := by simpa using hpk
        rw [ha, ← hk]
        exact List.mem_map.mpr ⟨p, hp, rfl⟩
      rw [hnil]
      rfl
    · rw [List.filter_cons_of_neg (by simpa using ha)]
      refine ih hnd'.2 ?_
      rcases List.mem_cons.mp hmem with h | h
      · exact absurd h.symm (by simpa using ha)
      · exact h

theorem wf_chunks_parent_count (ch : List (String × ChunkDoc))
    (hnd : (dictKeys ch).Nodup)
    (hinv : ∀ p ∈ ch, ∃ i < 3, p.1 = chunkId p.2.parent_url i) (url : String) :
    (ch.filter (fun p => p.2.parent_url = url)).length ≤ 3 := by
  set F := ch.filter (fun p => p.2.parent_url = url) with hF
  have hsub : F.Sublist ch := List.filter_sublist ch
  have hknd : (F.map Prod.fst).Nodup := (hsub.map Prod.fst).nodup hnd
  have hss : (F.map Prod.fst) ⊆ [chunkId url 0, chunkId url 1, chunkId url 2] := by
    intro k hk
    rcases List.mem_map.mp hk with ⟨p, hp, rfl⟩
    have hpch : p ∈ ch := hsub.mem hp
    have hpar : p.2.parent_url = url := by
      have := List.of_mem_filter hp
      simpa using this
    rcases hinv p hpch with ⟨i, hi, hpi⟩
    rw [hpi, hpar]
    interval_cases i
    · exact List.mem_cons_self _ _
    · exact List.mem_cons_of_mem _ (List.mem_cons_self _ _)
    · exact List.mem_cons_of_mem _ (List.mem_cons_of_mem _ (List.mem_cons_self _ _))
  have hperm := List.subperm_of_subset hknd hss
  have hlen := hperm.length_le
  simpa using hlen

theorem index_chunk_step_chunks (embed : String → List ℚ) (page : Page)
    (st : Store) (e : ℕ × String × String) :
    ((if pyStrip e.2.1 = "" then st
      else
        let chunks' := dictSet (chunkId page.url e.1)
          (viewChunk embed page e.2.1 e.2.2) st.chunks
        { st with chunks := chunks' }) : Store).chunks =
      if pyStrip e.2.1 = "" then st.chunks
      else dictSet (chunkId page.url e.1) (viewChunk embed page e.2.1 e.2.2) st.chunks := by
  split <;> rfl

theorem index_page_force_store (embed : String → List ℚ) (page : Page) (s : Store) :
    (index_page embed page true s).2 =
      (pageViews page).enum.foldl (fun s entry =>
        if pyStrip entry.2.1 = "" then s
        else
          let chunks' := dictSet (chunkId page.url entry.1)
            (viewChunk embed page entry.2.1 entry.2.2) s.chunks
          { s with chunks := chunks' })
        { s with pages := dictSet page.url (pageDocOf page) s.pages } := by
  unfold index_page
  simp only [Bool.not_true, Bool.false_and, Bool.false_eq_true, if_false]

/-- C7: after `index_page(p, force=true)` on any well-formed store, the page
collection holds exactly one document with id `p.url`, every chunk with
`parent_url = p.url` has id `chunkId p.url i` (the deterministic hash of
`p.url ++ "::view::" ++ i`) for some view index `i < 3`, there are at most
three such chunks, and each view with non-empty stripped text is stored
under its id with the freshly built chunk. -/
theorem index_page_force_shape (embed : String → List ℚ) (page : Page)
    (s : Store) (hwf : StoreWF s) :
    (((index_page embed page true s).2).pages.filter
      (fun p => p.1 = page.url)).length = 1 ∧
    (∀ p ∈ ((index_page embed page true s).2).chunks,
      p.2.parent_url = page.url → ∃ i < 3, p.1 = chunkId page.url i) ∧
    (((index_page embed page true s).2).chunks.filter
      (fun p => p.2.parent_url = page.url)).length ≤ 3 ∧
    (∀ e ∈ (pageViews page).enum, pyStrip e.2.1 ≠ "" →
      dictGet (chunkId page.url e.1) ((index_page embed page true s).2).chunks =
        some (viewChunk embed page e.2.1 e.2.2)) := by
  obtain ⟨hpnd, hcnd, hcinv⟩ := hwf
  have hwf' := index_chunkfold_wf embed page (pageViews page).enum
    (mem_enum_pageViews page)
    { s with pages := dictSet page.url (pageDocOf page) s.pages } hcnd hcinv
  rw [← index_page_force_store embed page s] at hwf'
  refine ⟨?_, ?_, ?_, ?_⟩
  · rw [index_page_pages]
    rw [if_neg (by simp)]
    exact filter_key_length_nodup (dictKeys_nodup_dictSet _ _ _ hpnd)
      ((dictHas_eq_mem_keys _ _).mp (dictHas_dictSet_self _ _ _))
  · intro p hp hpar
    rcases hwf'.2 p hp with ⟨i, hi, hpi⟩
    exact ⟨i, hi, by rw [hpi, hpar]⟩
  · exact wf_chunks_parent_count _ hwf'.1 hwf'.2 page.url
  · have hviews : (pageViews page).enum =
        [(0, (page.breadcrumb, "breadcrumb")),
         (1, (page.title ++ " - " ++ page.breadcrumb, "title_path")),
         (2, (String.mk ((enrichedContent page).data.take 2000), "full_content"))] := rfl
    have hch : ((index_page embed page true s).2).chunks =
        (if pyStrip (String.mk ((enrichedContent page).data.take 2000)) = ""
         then (if pyStrip (page.title ++ " - " ++ page.breadcrumb) = ""
               then (if pyStrip page.breadcrumb = "" then s.chunks
                     else dictSet (chunkId page.url 0)
                       (viewChunk embed page page.breadcrumb "breadcrumb") s.chunks)
               else dictSet (chunkId page.url 1)
                 (viewChunk embed page (page.title ++ " - " ++ page.breadcrumb) "title_path")
                 (if pyStrip page.breadcrumb = "" then s.chunks
                  else dictSet (chunkId page.url 0)
                    (viewChunk embed page page.breadcrumb "breadcrumb") s.chunks))
         else dictSet (chunkId page.url 2)
           (viewChunk embed page (String.mk ((enrichedContent page).data.take 2000)) "full_content")
           (if pyStrip (page.title ++ " - " ++ page.breadcrumb) = ""
            then (if pyStrip page.breadcrumb = "" then s.chunks
                  else dictSet (chunkId page.url 0)
                    (viewChunk embed page page.breadcrumb "breadcrumb") s.chunks)
            else dictSet (chunkId page.url 1)
              (viewChunk embed page (page.title ++ " - " ++ page.breadcrumb) "title_path")
              (if pyStrip page.breadcrumb = "" then s.chunks
               else dictSet (chunkId page.url 0)
                 (viewChunk embed page page.breadcrumb "breadcrumb") s.chunks))) := by
      rw [index_page_force_store, hviews]
      simp only [List.foldl_cons, List.foldl_nil]
      split_ifs <;> rfl
    have h01 : chunkId page.url 0 ≠ chunkId page.url 1 :=
      chunkId_ne_digits _ _ _ (by decide)
    have h02 : chunkId page.url 0 ≠ chunkId page.url 2 :=
      chunkId_ne_digits _ _ _ (by decide)
    have h12 : chunkId page.url 1 ≠ chunkId page.url 2 :=
      chunkId_ne_digits _ _ _ (by decide)
    intro e he hne
    rw [hviews] at he
    simp only [List.mem_cons, List.not_mem_nil, or_false] at he
    rcases he with rfl | rfl | rfl
    · rw [hch]
      dsimp only at hne ⊢
      simp only [if_neg hne]
      split
      · split
        · exact dictGet_dictSet_self _ _ _
        · rw [dictGet_dictSet_ne _ _ _ _ h01]
          exact dictGet_dictSet_self _ _ _
      · rw [dictGet_dictSet_ne _ _ _ _ h02]
        split
        · exact dictGet_dictSet_self _ _ _
        · rw [dictGet_dictSet_ne _ _ _ _ h01]
          exact dictGet_dictSet_self _ _ _
    · rw [hch]
      dsimp only at hne ⊢
      simp only [if_neg hne]
      split
      · exact dictGet_dictSet_self _ _ _
      · rw [dictGet_dictSet_ne _ _ _ _ h12]
        exact dictGet_dictSet_self _ _ _
    · rw [hch]
      dsimp only at hne ⊢
      simp only [if_neg hne]
      exact dictGet_dictSet_self _ _ _

/-- Witness for C7: force-indexing a concrete page into the empty store. -/
theorem index_page_force_shape_witness :
    (((index_page sampleEmbed samplePage true Store.empty).2).pages.filter
      (fun p => p.1 = samplePage.url)).length = 1 ∧
    (∀ p ∈ ((index_page sampleEmbed samplePage true Store.empty).2).chunks,
      p.2.parent_url = samplePage.url →
        ∃ i < 3, p.1 = chunkId samplePage.url i) ∧
    (((index_page sampleEmbed samplePage true Store.empty).2).chunks.filter
      (fun p => p.2.parent_url = samplePage.url)).length ≤ 3 ∧
    (∀ e ∈ (pageViews samplePage).enum, pyStrip e.2.1 ≠ "" →
      dictGet (chunkId samplePage.url e.1)
          ((index_page sampleEmbed samplePage true Store.empty).2).chunks =
        some (viewChunk sampleEmbed samplePage e.2.1 e.2.2)) :=
  index_page_force_shape sampleEmbed samplePage Store.empty
    ⟨List.nodup_nil, List.nodup_nil, fun p hp => absurd hp (List.not_mem_nil p)⟩

/-! ## Search shape: generic fold and sort lemmas -/

theorem foldl_pred (P : β → Prop) (f : β → α → β) :
    ∀ L : List α, (∀ b a, a ∈ L → P b → P (f b a)) →
    ∀ b, P b → P (L.foldl f b) := by
  intro L
  induction L with
  | nil => intro _ b h; exact h
  | cons a t ih =>
    intro hstep b h
    rw [List.foldl_cons]
    exact ih (fun b x hx => hstep b x (List.mem_cons_of_mem a hx)) _
      (hstep b a (List.mem_cons_self a t) h)

theorem dictGet_none_not_mem {l : List (String × α)} {k : String}
    (h : dictGet k l = none) : k ∉ dictKeys l := by
  intro hk
  rcases dictGet_isSome_of_has ((dictHas_eq_mem_keys k l).mpr hk) with ⟨v, hv⟩
  rw [h] at hv
  cases hv

theorem dictKeys_update_general (k : String) (v : α) (l : List (String × α)) :
    dictKeys (l.map (fun p => if p.1 = k then (k, v) else p)) = dictKeys l := by
  unfold dictKeys
  rw [List.map_map]
  congr 1
  funext p
  by_cases hp : p.1 = k <;> simp [hp]

theorem dictKeys_append_single (l : List (String × α)) (k : String) (v : α) :
    dictKeys (l ++ [(k, v)]) = dictKeys l ++ [k] := by
  unfold dictKeys
  rw [List.map_append]
  rfl

theorem nodup_keys_append {l : List (String × α)} {k : String} {v : α}
    (hnd : (dictKeys l).Nodup) (hnm : k ∉ dictKeys l) :
    (dictKeys (l ++ [(k, v)])).Nodup := by
  rw [dictKeys_append_single]
  rw [List.nodup_append]
  exact ⟨hnd, List.nodup_singleton _, by simpa [List.disjoint_singleton] using hnm⟩

theorem densePhase_keys_nodup (hits : List (HitMeta × ℚ)) :
    (dictKeys (densePhase hits)).Nodup := by
  unfold densePhase
  refine foldl_pred (fun acc => (dictKeys acc).Nodup) _ hits ?_ [] List.nodup_nil
  intro acc hit _ hnd
  dsimp only
  rcases hg : dictGet hit.1.parent_url acc with _ | prev
  · simp only [hg]
    exact nodup_keys_append hnd (dictGet_none_not_mem hg)
  · simp only [hg]
    split
    · rw [dictKeys_update_general hit.1.parent_url (1 - hit.2, hit.1) acc]
      exact hnd
    · exact hnd

theorem densePhase_values (hits : List (HitMeta × ℚ)) :
    ∀ p ∈ densePhase hits, ∃ h ∈ hits, p.2.1 = 1 - h.2 := by
  unfold densePhase
  refine foldl_pred (fun acc : List (String × (ℚ × HitMeta)) =>
      ∀ p ∈ acc, ∃ h ∈ hits, p.2.1 = 1 - h.2) _ hits ?_ []
    (fun p hp => absurd hp (List.not_mem_nil p))
  intro acc hit hmem hP
  dsimp only
  rcases hg : dictGet hit.1.parent_url acc with _ | prev
  · simp only [hg]
    intro p hp
    rcases List.mem_append.mp hp with hp | hp
    · exact hP p hp
    · have hpe : p = (hit.1.parent_url, (1 - hit.2, hit.1)) := by simpa using hp
      exact ⟨hit, hmem, by rw [hpe]⟩
  · simp only [hg]
    split
    · intro p hp
      rcases List.mem_map.mp hp with ⟨q, hq, hqe⟩
      by_cases hqk : q.1 = hit.1.parent_url
      · rw [if_pos hqk] at hqe
        exact ⟨hit, hmem, by rw [← hqe]⟩
      · rw [if_neg hqk] at hqe
        exact hP p (hqe ▸ hq)
    · exact hP

theorem dictKeys_map_pair (f : α → β) (l : List (String × α)) :
    dictKeys (l.map (fun p => (p.1, f p.2))) = dictKeys l := by
  unfold dictKeys
  rw [List.map_map]
  rfl

theorem blend_keys_nodup (us bm : List (String × ℚ))
    (h : (dictKeys us).Nodup) : (dictKeys (blend us bm)).Nodup := by
  unfold blend
  refine foldl_pred (fun acc => (dictKeys acc).Nodup) _ bm ?_ us h
  intro acc p _ hnd
  dsimp only
  split
  · rw [dictKeys_update p.1 (fun d => d * (7/10) + p.2 * (3/10)) acc]
    exact hnd
  · rename_i hhas
    refine nodup_keys_append hnd ?_
    intro hk
    exact hhas ((dictHas_eq_mem_keys _ _).mpr hk)

theorem blend_values_pred (P : ℚ → Prop) (us bm : List (String × ℚ))
    (hus : ∀ p ∈ us, P p.2)
    (hbm : ∀ p ∈ bm, 0 < p.2 ∧ p.2 ≤ 1)
    (hmix : ∀ d b, P d → 0 < b → b ≤ 1 → P (d * (7/10) + b * (3/10)))
    (hnew : ∀ b, 0 < b → b ≤ 1 → P (b * (3/10))) :
    ∀ p ∈ blend us bm, P p.2 := by
  unfold blend
  refine foldl_pred (fun acc => ∀ p ∈ acc, P p.2) _ bm ?_ us hus
  intro acc q hqmem hP
  dsimp only
  obtain ⟨hq0, hq1⟩ := hbm q hqmem
  split
  · intro p hp
    rcases List.mem_map.mp hp with ⟨r, hr, hre⟩
    by_cases hrk : r.1 = q.1
    · rw [if_pos hrk] at hre
      rw [← hre]
      exact hmix r.2 q.2 (hP r hr) hq0 hq1
    · rw [if_neg hrk] at hre
      exact hP p (hre ▸ hr)
  · intro p hp
    rcases List.mem_append.mp hp with hp | hp
    · exact hP p hp
    · have : p = (q.1, q.2 * (3/10)) := by simpa using hp
      rw [this]
      exact hnew q.2 hq0 hq1

theorem insertDesc_perm (x : String × ℚ) :
    ∀ l : List (String × ℚ), (insertDesc x l).Perm (x :: l) := by
  intro l
  induction l with
  | nil => exact List.Perm.refl _
  | cons y ys ih =>
    unfold insertDesc
    split
    · exact List.Perm.refl _
    · exact (ih.cons y).trans (List.Perm.swap x y ys)

theorem sortDesc_perm : ∀ l : List (String × ℚ), (sortDesc l).Perm l := by
  intro l
  induction l with
  | nil => exact List.Perm.refl _
  | cons x xs ih =>
    unfold sortDesc
    exact (insertDesc_perm x (sortDesc xs)).trans (ih.cons x)

theorem insertDesc_sorted (x : String × ℚ) :
    ∀ l : List (String × ℚ),
    List.Pairwise (fun a b : String × ℚ => b.2 ≤ a.2) l →
    List.Pairwise (fun a b : String × ℚ => b.2 ≤ a.2) (insertDesc x l) := by
  intro l
  induction l with
  | nil => intro _; exact List.pairwise_singleton _ _
  | cons y ys ih =>
    intro h
    rcases List.pairwise_cons.mp h with ⟨hy, hys⟩
    unfold insertDesc
    split
    · rename_i hxy
      refine List.pairwise_cons.mpr ⟨?_, h⟩
      intro z hz
      rcases List.mem_cons.mp hz with rfl | hz
      · exact hxy
      · exact le_trans (hy z hz) hxy
    · rename_i hxy
      push_neg at hxy
      refine List.pairwise_cons.mpr ⟨?_, ih hys⟩
      intro z hz
      have hz' := (insertDesc_perm x ys).mem_iff.mp hz
      rcases List.mem_cons.mp hz' with rfl | hz'
      · exact le_of_lt hxy
      · exact hy z hz'

theorem sortDesc_sorted : ∀ l : List (String × ℚ),
    List.Pairwise (fun a b : String × ℚ => b.2 ≤ a.2) (sortDesc l) := by
  intro l
  induction l with
  | nil => exact List.Pairwise.nil
  | cons x xs ih =>
    unfold sortDesc
    exact insertDesc_sorted x (sortDesc xs) ih

theorem round4_mono {a b : ℚ} (h : a ≤ b) : round4 a ≤ round4 b := by
  unfold round4
  have hr : round (a * 10000) ≤ round (b * 10000) := by
    rw [round_eq, round_eq]
    exact Int.floor_mono (by linarith)
  have h10 : (0:ℚ) < 10000 := by norm_num
  exact (div_le_div_iff_of_pos_right h10).mpr (by exact_mod_cast hr)

theorem round4_one : round4 1 = 1 := by
  unfold round4
  norm_num

theorem round4_zero : round4 0 = 0 := by
  unfold round4
  norm_num

theorem foldl_toList_append (h : List β → α → List β) (f : α → Option γ)
    (g : α → γ → β)
    (hh : ∀ acc x, h acc x = acc ++ ((f x).map (g x)).toList) :
    ∀ (L : List α) (acc : List β),
      L.foldl h acc = acc ++ L.filterMap (fun x => (f x).map (g x)) := by
  intro L
  induction L with
  | nil => intro acc; simp
  | cons a t ih =>
    intro acc
    rw [List.foldl_cons, hh, List.filterMap_cons, ih]
    rcases hfa : f a with _ | y
    · simp [hfa]
    · simp [hfa]

theorem pairwise_filterMap_of_pairwise (R : β → β → Prop) (S : α → α → Prop)
    (f : α → Option β)
    (hf : ∀ a a' b b', S a a' → f a = some b → f a' = some b' → R b b') :
    ∀ l : List α, List.Pairwise S l → List.Pairwise R (l.filterMap f) := by
  intro l
  induction l with
  | nil => intro _; simp
  | cons a t ih =>
    intro h
    rcases List.pairwise_cons.mp h with ⟨ha, ht⟩
    rw [List.filterMap_cons]
    rcases hfa : f a with _ | b
    · exact ih ht
    · refine List.pairwise_cons.mpr ⟨?_, ih ht⟩
      intro b' hb'
      rcases List.mem_filterMap.mp hb' with ⟨a', ha', hfa'⟩
      exact hf a a' b b' (ha a' ha') hfa hfa'

/-- C6 counterexample: a single chunk hit at cosine distance 2 (antipodal in
cosine space) yields a returned result with score −1, outside `[0, 1]`. -/
theorem search_score_counterexample :
    (search [({ parent_url := "u", title := "t", breadcrumb := "b" }, 2)] [0]
      (fun _ => some "x") 10).map (fun r => r.score) = [-1] ∧ ¬ ((0:ℚ) ≤ -1) := by
  constructor
  · have h1 : (search [({ parent_url := "u", title := "t", breadcrumb := "b" }, 2)] [0]
        (fun _ => some "x") 10).map (fun r => r.score) = [round4 (1 - 2)] := by
      unfold search densePhase bm25_search blend
      simp [dictGet, dictKeys, dictHas, dictSet, sortDesc, insertDesc]
    rw [h1]
    have h2 : round4 ((1:ℚ) - 2) = -1 := by
      rw [show ((1:ℚ) - 2) = -1 by norm_num]
      unfold round4
      rw [show (-1 : ℚ) * 10000 = ((-10000 : ℤ) : ℚ) by norm_num, round_intCast]
      norm_num
    rw [h2]
  · norm_num

/-- C6 (amended): `search(q, top_k)` returns at most `top_k` results with
non-increasing scores and no URL twice; every rounded score is at most 1
(cosine distances are non-negative), and all scores lie in `[0, 1]` when
every returned distance is at most 1 — a distance above 1 yields a negative
score, which the code does not clamp. -/
theorem search_shape (hits : List (HitMeta × ℚ)) (raw : List ℚ)
    (gfp : String → Option String) (top_k : ℕ)
    (hd : ∀ h ∈ hits, 0 ≤ h.2) :
    (search hits raw gfp top_k).length ≤ top_k ∧
    List.Pairwise (fun r r' : SearchResult => r'.score ≤ r.score)
      (search hits raw gfp top_k) ∧
    ((search hits raw gfp top_k).map (fun r => r.url)).Nodup ∧
    (∀ r ∈ search hits raw gfp top_k, r.score ≤ 1) ∧
    ((∀ h ∈ hits, h.2 ≤ 1) → ∀ r ∈ search hits raw gfp top_k, 0 ≤ r.score) := by
  have hsearch : search hits raw gfp top_k =
      ((sortDesc (blend ((densePhase hits).map (fun p => (p.1, p.2.1)))
          (bm25_search (dictKeys ((densePhase hits).map (fun p => (p.1, p.2.1)))) raw))).take
            top_k).filterMap
        (fun p => (gfp p.1).map (fun c =>
          ({ url := p.1,
             title := ((dictGet p.1 (densePhase hits)).map (fun m => m.2.title)).getD "",
             breadcrumb := ((dictGet p.1 (densePhase hits)).map
               (fun m => m.2.breadcrumb)).getD "",
             score := round4 p.2, content := c } : SearchResult))) := by
    unfold search
    dsimp only
    refine ((foldl_toList_append _ (fun p : String × ℚ => gfp p.1)
      (fun p c =>
        ({ url := p.1,
           title := ((dictGet p.1 (densePhase hits)).map (fun m => m.2.title)).getD "",
           breadcrumb := ((dictGet p.1 (densePhase hits)).map
             (fun m => m.2.breadcrumb)).getD "",
           score := round4 p.2, content := c } : SearchResult)) ?_ _ []).trans
      (List.nil_append _))
    intro acc x
    rcases hgc : gfp x.1 with _ | c <;> simp [hgc]
  rw [hsearch]
  set dense := densePhase hits with hdense
  set us := dense.map (fun p => (p.1, p.2.1)) with husdef
  set bm := bm25_search (dictKeys us) raw with hbmdef
  set blended := blend us bm with hblenddef
  set ranked := (sortDesc blended).take top_k with hrankeddef
  have husle : ∀ p ∈ us, p.2 ≤ 1 := by
    intro p hp
    rcases List.mem_map.mp hp with ⟨q, hq, rfl⟩
    dsimp only
    rcases densePhase_values hits q hq with ⟨h, hh, hq2⟩
    rw [hq2]
    have := hd h hh
    linarith
  have hvals1 : ∀ p ∈ blended, p.2 ≤ 1 :=
    blend_values_pred (· ≤ 1) us bm husle (bm25_search_pos_le_one _ raw)
      (fun d b hdd hb0 hb1 => by dsimp only at *; linarith)
      (fun b hb0 hb1 => by dsimp only at *; linarith)
  have hknd : (dictKeys blended).Nodup := by
    refine blend_keys_nodup us bm ?_
    rw [husdef, dictKeys_map_pair]
    exact densePhase_keys_nodup hits
  have hr_sub : ranked.Sublist (sortDesc blended) := List.take_sublist _ _
  have hr_sorted : List.Pairwise (fun a b : String × ℚ => b.2 ≤ a.2) ranked :=
    (sortDesc_sorted blended).sublist hr_sub
  have hr_keys_nodup : (ranked.map Prod.fst).Nodup := by
    have hsortednd : ((sortDesc blended).map Prod.fst).Nodup :=
      (((sortDesc_perm blended).map Prod.fst).nodup_iff).mpr hknd
    exact (hr_sub.map Prod.fst).nodup hsortednd
  have hr_mem : ∀ p ∈ ranked, p ∈ blended := by
    intro p hp
    exact (sortDesc_perm blended).mem_iff.mp (hr_sub.mem hp)
  refine ⟨?_, ?_, ?_, ?_, ?_⟩
  · refine le_trans (List.length_filterMap_le _ _) ?_
    rw [hrankeddef]
    exact List.length_take_le _ _
  · refine pairwise_filterMap_of_pairwise _ (fun p q : String × ℚ => q.2 ≤ p.2) _
      ?_ ranked hr_sorted
    intro a a' b b' hS ha hb
    rcases Option.map_eq_some'.mp ha with ⟨c, hc, hrow⟩
    rcases Option.map_eq_some'.mp hb with ⟨c', hc', hrow'⟩
    rw [← hrow, ← hrow']
    exact round4_mono hS
  · have : List.Pairwise (fun r r' : SearchResult => r.url ≠ r'.url)
        (ranked.filterMap (fun p => (gfp p.1).map (fun c =>
          ({ url := p.1,
             title := ((dictGet p.1 dense).map (fun m => m.2.title)).getD "",
             breadcrumb := ((dictGet p.1 dense).map (fun m => m.2.breadcrumb)).getD "",
             score := round4 p.2, content := c } : SearchResult)))) := by
      refine pairwise_filterMap_of_pairwise _ (fun p q : String × ℚ => p.1 ≠ q.1) _
        ?_ ranked (List.pairwise_map.mp hr_keys_nodup)
      intro a a' b b' hS ha hb
      rcases Option.map_eq_some'.mp ha with ⟨c, hc, hrow⟩
      rcases Option.map_eq_some'.mp hb with ⟨c', hc', hrow'⟩
      rw [← hrow, ← hrow']
      exact hS
    exact List.pairwise_map.mpr this
  · intro r hr
    rcases List.mem_filterMap.mp hr with ⟨p, hp, hpe⟩
    rcases Option.map_eq_some'.mp hpe with ⟨c, hc, hrow⟩
    have hple := hvals1 p (hr_mem p hp)
    rw [← hrow]
    calc round4 p.2 ≤ round4 1 := round4_mono hple
      _ = 1 := round4_one
  · intro hle1
    have husge : ∀ p ∈ us, 0 ≤ p.2 := by
      intro p hp
      rcases List.mem_map.mp hp with ⟨q, hq, rfl⟩
      dsimp only
      rcases densePhase_values hits q hq with ⟨h, hh, hq2⟩
      rw [hq2]
      have := hle1 h hh
      linarith
    have hvals0 : ∀ p ∈ blended, 0 ≤ p.2 :=
      blend_values_pred (0 ≤ ·) us bm husge (bm25_search_pos_le_one _ raw)
        (fun d b hdd hb0 hb1 => by dsimp only at *; linarith)
        (fun b hb0 hb1 => by dsimp only at *; linarith)
    intro r hr
    rcases List.mem_filterMap.mp hr with ⟨p, hp, hpe⟩
    rcases Option.map_eq_some'.mp hpe with ⟨c, hc, hrow⟩
    have hpge := hvals0 p (hr_mem p hp)
    rw [← hrow]
    calc (0:ℚ) = round4 0 := round4_zero.symm
      _ ≤ round4 p.2 := round4_mono hpge

/-- Witness for the C6 amended theorem at a one-hit store with distance 0. -/
theorem search_shape_witness :
    (search [({ parent_url := "u", title := "t", breadcrumb := "b" }, 0)] [0]
      (fun _ => some "x") 10).length ≤ 10 ∧
    List.Pairwise (fun r r' : SearchResult => r'.score ≤ r.score)
      (search [({ parent_url := "u", title := "t", breadcrumb := "b" }, 0)] [0]
        (fun _ => some "x") 10) ∧
    ((search [({ parent_url := "u", title := "t", breadcrumb := "b" }, 0)] [0]
      (fun _ => some "x") 10).map (fun r => r.url)).Nodup ∧
    (∀ r ∈ search [({ parent_url := "u", title := "t", breadcrumb := "b" }, 0)] [0]
      (fun _ => some "x") 10, r.score ≤ 1) ∧
    ((∀ h ∈ [(({ parent_url := "u", title := "t", breadcrumb := "b" } : HitMeta), (0:ℚ))],
        h.2 ≤ 1) →
      ∀ r ∈ search [({ parent_url := "u", title := "t", breadcrumb := "b" }, 0)] [0]
        (fun _ => some "x") 10, 0 ≤ r.score) :=
  search_shape [({ parent_url := "u", title := "t", breadcrumb := "b" }, 0)] [0]
    (fun _ => some "x") 10
    (fun h hh => by
      simp only [List.mem_singleton] at hh
      subst hh
      norm_num)

end MwKb
